import Mathlib

/-!
Verification of the durable key-value store (`src/kv_store/store.py`,
`src/kv_store/indexes.py`, `src/protocol.py`, `src/server.py`,
`src/cluster_node.py`, `src/replication.py`).

The development shallowly embeds the Python source:
* `Jval` models JSON-representable Python values (`json.loads` output),
* `Dict` models the insertion-ordered Python `dict` used for `KVStore._data`,
* the WAL codec models `json.dumps(entry) + "\n"` lines and their parsing by
  `json.loads` during `KVStore._recover`,
* recovery, the full-text index, the wire protocol, the cluster request
  handler and the election loops are modelled as executable functions.
-/

set_option maxHeartbeats 1000000

/-- JSON-representable values, as produced by `json.loads`. Numbers are
modelled as integers (the store's entries and the repository's tests use
ints; floats are not needed by any claim). -/
inductive Jval where
  | null : Jval
  | bool (b : Bool) : Jval
  | int (n : Int) : Jval
  | str (s : String) : Jval
  | arr (elems : List Jval) : Jval
  | obj (fields : List (String × Jval)) : Jval

/-- A Python `dict[str, value]`: insertion-ordered association list. All
operations below keep keys unique, matching Python dict semantics. -/
abbrev Dict := List (String × Jval)

/-- `d[k] = v` on a Python dict: overwrite in place if the key exists
(keeping its position), otherwise append at the end. -/
def dset : Dict → String → Jval → Dict
  | [], k, v => [(k, v)]
  | p :: d, k, v => if p.1 = k then (k, v) :: d else p :: dset d k v

/-- `d.pop(k, None)` on a Python dict (result state only): the key is
removed. On key-unique dicts this equals removing the one entry. -/
def dpop : Dict → String → Dict
  | [], _ => []
  | p :: d, k => if p.1 = k then dpop d k else p :: dpop d k

/-- `d.get(k)` on a Python dict: `some v` if present, `none` if absent. -/
def dget : Dict → String → Option Jval
  | [], _ => none
  | p :: d, k => if p.1 = k then some p.2 else dget d k

/-- Building a Python dict from a decoded JSON object's field list: later
duplicate keys overwrite earlier ones (`json.loads` semantics). -/
def loadFields (fs : List (String × Jval)) : Dict :=
  fs.foldl (fun d p => dset d p.1 p.2) []

/-- WAL log entries, as written by `KVStore.set` / `delete` / `bulk_set`
(`store.py` lines 107, 123, 142). -/
inductive Entry where
  | set (key : String) (value : Jval) : Entry
  | del (key : String) : Entry
  | bulk (items : List (String × Jval)) : Entry

/-- Applying one WAL entry to the in-memory map, as in `KVStore._recover`
(`store.py` lines 56-62) and in the mutation paths of `set` / `delete` /
`bulk_set` (lines 102, 118, 136-137). -/
def applyEntry (d : Dict) : Entry → Dict
  | .set k v => dset d k v
  | .del k => dpop d k
  | .bulk items => items.foldl (fun d' p => dset d' p.1 p.2) d

/-- Replaying a list of WAL entries in order. -/
def applyAllE (es : List Entry) (d : Dict) : Dict :=
  es.foldl applyEntry d

/-- The value assigned to key `k` by the last pair of a bulk record that
mentions `k` (pairs are applied in list order, so the last one wins). -/
def lastPairVal : List (String × Jval) → String → Option Jval
  | [], _ => none
  | p :: items, k =>
    match lastPairVal items k with
    | some v => some v
    | none => if p.1 = k then some p.2 else none

/-- The net effect of one entry on key `k`: `none` when the entry does not
touch `k`, `some r` when it forces `dget _ k = r` afterwards. -/
def entryEffect (e : Entry) (k : String) : Option (Option Jval) :=
  match e with
  | .set k' v => if k' = k then some (some v) else none
  | .del k' => if k' = k then some none else none
  | .bulk items => (lastPairVal items k).map some

/-- The net effect of a list of entries on key `k` (the last touching
entry wins). -/
def entriesEffect : List Entry → String → Option (Option Jval)
  | [], _ => none
  | e :: es, k =>
    match entriesEffect es k with
    | some r => some r
    | none => entryEffect e k

/-- Whether an entry touches key `k` at all. -/
def entryTouches (e : Entry) (k : String) : Bool :=
  match e with
  | .set k' _ => k' = k
  | .del k' => k' = k
  | .bulk items => items.any (fun p => p.1 = k)

theorem dget_dset (d : Dict) (k k' : String) (v : Jval) :
    dget (dset d k v) k' = if k' = k then some v else dget d k' := by
  induction d with
  | nil =>
    by_cases h : k' = k
    · subst h; simp [dset, dget]
    · simp [dset, dget, h, Ne.symm h]
  | cons p d ih =>
    by_cases hp : p.1 = k
    · subst hp
      by_cases h : k' = p.1
      · subst h; simp [dset, dget]
      · simp [dset, dget, h, Ne.symm h]
    · by_cases h : k' = k
      · subst h
        simp [dset, dget, hp, ih]
      · simp [dset, dget, hp, ih, h]

theorem dget_dpop (d : Dict) (k k' : String) :
    dget (dpop d k) k' = if k' = k then none else dget d k' := by
  induction d with
  | nil => by_cases h : k' = k <;> simp [dpop, dget, h]
  | cons p d ih =>
    by_cases hp : p.1 = k
    · subst hp
      by_cases h : k' = p.1
      · subst h; simp [dpop, dget, ih]
      · simp [dpop, dget, ih, h, Ne.symm h]
    · by_cases h : k' = k
      · subst h; simp [dpop, dget, hp, ih]
      · simp [dpop, dget, hp, ih, h]

theorem dget_bulkfold (items : List (String × Jval)) (d : Dict) (k : String) :
    dget (items.foldl (fun d' p => dset d' p.1 p.2) d) k
      = ((lastPairVal items k).map some).getD (dget d k) := by
  induction items generalizing d with
  | nil => simp [lastPairVal]
  | cons p items ih =>
    simp only [List.foldl_cons, ih, lastPairVal]
    cases h : lastPairVal items k with
    | some v => simp
    | none =>
      by_cases hp : p.1 = k
      · simp [hp, dget_dset]
      · simp [hp, dget_dset, Ne.symm hp]

theorem applyEntry_dget (d : Dict) (e : Entry) (k : String) :
    dget (applyEntry d e) k = (entryEffect e k).getD (dget d k) := by
  cases e with
  | set k' v =>
    by_cases h : k' = k
    · simp [applyEntry, entryEffect, h, dget_dset]
    · simp [applyEntry, entryEffect, h, dget_dset, Ne.symm h]
  | del k' =>
    by_cases h : k' = k
    · simp [applyEntry, entryEffect, h, dget_dpop]
    · simp [applyEntry, entryEffect, h, dget_dpop, Ne.symm h]
  | bulk items => simp [applyEntry, entryEffect, dget_bulkfold]

theorem applyAllE_dget (es : List Entry) (d : Dict) (k : String) :
    dget (applyAllE es d) k = (entriesEffect es k).getD (dget d k) := by
  induction es generalizing d with
  | nil => simp [applyAllE, entriesEffect]
  | cons e es ih =>
    simp only [applyAllE, List.foldl_cons, entriesEffect]
    rw [show es.foldl applyEntry (applyEntry d e) = applyAllE es (applyEntry d e) from rfl, ih]
    cases h : entriesEffect es k with
    | some r => simp
    | none => simp [applyEntry_dget]

theorem entriesEffect_append (A B : List Entry) (k : String) :
    entriesEffect (A ++ B) k
      = match entriesEffect B k with
        | some r => some r
        | none => entriesEffect A k := by
  induction A with
  | nil =>
    simp only [List.nil_append, entriesEffect]
    cases entriesEffect B k <;> rfl
  | cons e A ih =>
    simp only [List.cons_append, entriesEffect]
    have ih' : entriesEffect (A.append B) k
        = match entriesEffect B k with
          | some r => some r
          | none => entriesEffect A k := ih
    rw [ih']
    cases entriesEffect B k <;> cases entriesEffect A k <;> rfl

theorem lastPairVal_eq_none (items : List (String × Jval)) (k : String)
    (h : items.any (fun p => p.1 = k) = false) : lastPairVal items k = none := by
  induction items with
  | nil => rfl
  | cons p items ih =>
    simp only [List.any_cons, Bool.or_eq_false_iff, decide_eq_false_iff_not] at h
    simp [lastPairVal, ih h.2, h.1]

theorem entryEffect_eq_none (e : Entry) (k : String)
    (h : entryTouches e k = false) : entryEffect e k = none := by
  cases e with
  | set k' v =>
    simp only [entryTouches, decide_eq_false_iff_not] at h
    simp [entryEffect, h]
  | del k' =>
    simp only [entryTouches, decide_eq_false_iff_not] at h
    simp [entryEffect, h]
  | bulk items =>
    simp [entryEffect, lastPairVal_eq_none items k (by simpa [entryTouches] using h)]

/-- Store-level mutating operations, the public API of `KVStore`
(`store.py` lines 93, 110, 126). -/
inductive Op where
  | set (key : String) (value : Jval) : Op
  | del (key : String) : Op
  | bulk (items : List (String × Jval)) : Op

/-- The WAL entries appended by one store operation. `bulk_set` with an
empty list returns early and appends nothing (`store.py` lines 133-134);
every other operation appends exactly one entry. -/
def opEntries : Op → List Entry
  | .set k v => [.set k v]
  | .del k => [.del k]
  | .bulk items => if items.isEmpty then [] else [.bulk items]

/-- The in-memory mutation performed by one store operation
(`store.py` lines 102, 118, 136-137). -/
def opApply (d : Dict) : Op → Dict
  | .set k v => dset d k v
  | .del k => dpop d k
  | .bulk items => items.foldl (fun d' p => dset d' p.1 p.2) d

/-- The WAL entries appended by a sequence of store operations. -/
def walEntries : List Op → List Entry
  | [] => []
  | o :: ops => opEntries o ++ walEntries ops

/-- The in-memory map after executing a sequence of store operations. -/
def execOps (ops : List Op) (d : Dict) : Dict :=
  ops.foldl opApply d

theorem applyAllE_append (A B : List Entry) (d : Dict) :
    applyAllE (A ++ B) d = applyAllE B (applyAllE A d) := by
  simp [applyAllE, List.foldl_append]

theorem opApply_eq (d : Dict) (o : Op) :
    opApply d o = applyAllE (opEntries o) d := by
  cases o with
  | set k v => rfl
  | del k => rfl
  | bulk items =>
    by_cases h : items.isEmpty
    · cases items with
      | nil => rfl
      | cons p items => simp [List.isEmpty] at h
    · simp [opApply, opEntries, h, applyAllE, applyEntry]

theorem execOps_eq (ops : List Op) (d : Dict) :
    execOps ops d = applyAllE (walEntries ops) d := by
  induction ops generalizing d with
  | nil => rfl
  | cons o ops ih =>
    simp only [execOps, List.foldl_cons, walEntries, applyAllE_append]
    rw [show ops.foldl opApply (opApply d o) = execOps ops (opApply d o) from rfl, ih, opApply_eq]

/-- The decimal digit character for `n < 10`. -/
def digitChar (n : Nat) : Char := Char.ofNat (48 + n)

/-- Decimal digits of a natural number (fuel-driven so that it reduces in
the kernel); `encNat` supplies sufficient fuel. -/
def encNatAux : Nat → Nat → List Char
  | 0, _ => []
  | fuel + 1, n =>
    if n < 10 then [digitChar n] else encNatAux fuel (n / 10) ++ [digitChar (n % 10)]

/-- Canonical decimal digits of a natural number, as in `json.dumps`. -/
def encNat (n : Nat) : List Char := encNatAux (n + 1) n

/-- Canonical decimal text of an integer, as in `json.dumps`. -/
def encInt (n : Int) : List Char :=
  if n < 0 then '-' :: encNat (-n).toNat else encNat n.toNat

/-- JSON string escaping of one character, modelling `json.dumps` for the
structurally significant characters (backslash, double quote, newline);
other characters are emitted verbatim. -/
def escChar (c : Char) : List Char :=
  if c = '\\' then ['\\', '\\']
  else if c = '"' then ['\\', '"']
  else if c = '\n' then ['\\', 'n']
  else [c]

/-- JSON string escaping of a character list. -/
def escStr : List Char → List Char
  | [] => []
  | c :: cs => escChar c ++ escStr cs

/-- `json.dumps` of a string: quote, escaped body, quote. -/
def encStr (s : String) : List Char := '"' :: (escStr s.data ++ ['"'])

mutual
/-- `json.dumps(v)` with the default separators `", "` and `": "`, exactly
as used by `KVStore._append_wal` and `_save_snapshot` (`store.py` lines
75, 84). -/
def encJ : Jval → List Char
  | .null => "null".data
  | .bool true => "true".data
  | .bool false => "false".data
  | .int n => encInt n
  | .str s => encStr s
  | .arr [] => "[]".data
  | .arr (v :: vs) => '[' :: ((encJ v ++ encElems vs) ++ [']'])
  | .obj [] => ['\x7b', '\x7d']
  | .obj ((k, v) :: fs) =>
    '\x7b' :: ((encStr k ++ (':' :: ' ' :: encJ v) ++ encFields fs) ++ ['\x7d'])

/-- The `", "`-separated encodings of the second and later array elements. -/
def encElems : List Jval → List Char
  | [] => []
  | v :: vs => ',' :: ' ' :: (encJ v ++ encElems vs)

/-- The `", "`-separated encodings of the second and later object members. -/
def encFields : List (String × Jval) → List Char
  | [] => []
  | (k, v) :: fs => ',' :: ' ' :: (encStr k ++ (':' :: ' ' :: encJ v) ++ encFields fs)
end

/-- The JSON object logged for one WAL entry (`store.py` lines 107, 123,
142): `{"op": "set", "key": k, "value": v}`, `{"op": "delete", "key": k}`,
`{"op": "bulk", "items": [[k, v], ...]}`. -/
def entryJson : Entry → Jval
  | .set k v => .obj [("op", .str "set"), ("key", .str k), ("value", v)]
  | .del k => .obj [("op", .str "delete"), ("key", .str k)]
  | .bulk items =>
    .obj [("op", .str "bulk"),
          ("items", .arr (items.map (fun p => .arr [.str p.1, p.2])))]

/-- One WAL line (without its trailing newline): `json.dumps(entry)`. -/
def encodeEntry (e : Entry) : List Char := encJ (entryJson e)

/-- The byte content of the WAL file after appending the given entries:
each entry is one line terminated by `"\n"` (`store.py` line 75). -/
def walFile : List Entry → List Char
  | [] => []
  | e :: es => encodeEntry e ++ '\n' :: walFile es

theorem encNatAux_fuel (fuel fuel' n : Nat) (h : n < fuel) (h' : n < fuel') :
    encNatAux fuel n = encNatAux fuel' n := by
  induction fuel generalizing fuel' n with
  | zero => omega
  | succ f ih =>
    cases fuel' with
    | zero => omega
    | succ f' =>
      simp only [encNatAux]
      by_cases h10 : n < 10
      · simp [h10]
      · have hd : n / 10 < n := Nat.div_lt_self (by omega) (by omega)
        simp only [h10, if_false]
        rw [ih f' (n / 10) (by omega) (by omega)]

theorem encNat_unfold (n : Nat) :
    encNat n = if n < 10 then [digitChar n] else encNat (n / 10) ++ [digitChar (n % 10)] := by
  by_cases h10 : n < 10
  · simp [encNat, encNatAux, h10]
  · have hd : n / 10 < n := Nat.div_lt_self (by omega) (by omega)
    simp only [encNat, encNatAux, h10, if_false]
    rw [encNatAux_fuel n (n / 10 + 1) (n / 10) (by omega) (by omega)]
    rfl

/-- Decimal value of a digit character. -/
def dval (c : Char) : Nat := c.toNat - 48

/-- The natural number denoted by a digit string (most significant first). -/
def natOfDigits (ds : List Char) : Nat :=
  ds.foldl (fun a c => 10 * a + dval c) 0

theorem digitChar_isDigit (d : Nat) (h : d < 10) : (digitChar d).isDigit = true := by
  interval_cases d <;> decide

theorem digitChar_ne_zero (d : Nat) (h1 : 1 ≤ d) (h2 : d < 10) : digitChar d ≠ '0' := by
  interval_cases d <;> decide

theorem dval_digitChar (d : Nat) (h : d < 10) : dval (digitChar d) = d := by
  interval_cases d <;> decide

theorem encNat_all_digits (n : Nat) : (encNat n).all Char.isDigit = true := by
  induction n using Nat.strong_induction_on with
  | _ n ih =>
    rw [encNat_unfold]
    by_cases h10 : n < 10
    · simp [h10, digitChar_isDigit n h10]
    · have hd : n / 10 < n := Nat.div_lt_self (by omega) (by omega)
      simp [h10, List.all_append, ih (n / 10) hd,
        digitChar_isDigit (n % 10) (Nat.mod_lt _ (by omega))]

theorem encNat_ne_nil (n : Nat) : encNat n ≠ [] := by
  rw [encNat_unfold]
  by_cases h10 : n < 10 <;> simp [h10]

theorem encNat_head_pos (n : Nat) (hn : 1 ≤ n) :
    ∀ c cs, encNat n = c :: cs → c.isDigit = true ∧ c ≠ '0' := by
  induction n using Nat.strong_induction_on with
  | _ n ih =>
    intro c cs hc
    rw [encNat_unfold] at hc
    by_cases h10 : n < 10
    · simp only [h10, if_true] at hc
      cases hc
      exact ⟨digitChar_isDigit n h10, digitChar_ne_zero n hn h10⟩
    · have hd : n / 10 < n := Nat.div_lt_self (by omega) (by omega)
      simp only [h10, if_false] at hc
      have hnn := encNat_ne_nil (n / 10)
      cases he : encNat (n / 10) with
      | nil => exact absurd he hnn
      | cons c' cs' =>
        rw [he, List.cons_append] at hc
        have : c' = c := by exact (List.cons.injEq _ _ _ _ ▸ hc).1
        subst this
        exact ih (n / 10) hd (by omega) c' cs' he

theorem natOfDigits_append_one (ds : List Char) (c : Char) :
    natOfDigits (ds ++ [c]) = 10 * natOfDigits ds + dval c := by
  simp [natOfDigits, List.foldl_append]

theorem natOfDigits_encNat (n : Nat) : natOfDigits (encNat n) = n := by
  induction n using Nat.strong_induction_on with
  | _ n ih =>
    rw [encNat_unfold]
    by_cases h10 : n < 10
    · simp [h10, natOfDigits, dval_digitChar n h10]
    · have hd : n / 10 < n := Nat.div_lt_self (by omega) (by omega)
      simp only [h10, if_false]
      rw [natOfDigits_append_one, ih (n / 10) hd, dval_digitChar (n % 10) (Nat.mod_lt _ (by omega))]
      omega

theorem natOfDigits_pos (c : Char) (ds : List Char) (hc : c ≠ '0') (hd : c.isDigit = true) :
    1 ≤ natOfDigits (c :: ds) := by
  have h1 : 1 ≤ dval c := by
    simp only [Char.isDigit, Bool.and_eq_true, decide_eq_true_eq] at hd
    obtain ⟨hg, _⟩ := hd
    have hge : 48 ≤ c.toNat := hg
    have h48 : c.toNat ≠ 48 := by
      intro h
      apply hc
      apply Char.ext
      have hv : c.val = (48 : UInt32) := by
        apply UInt32.toNat.inj
        simpa using h
      simp [hv]
    simp only [dval]
    omega
  clear hc hd
  induction ds using List.reverseRecOn with
  | nil => simpa [natOfDigits, dval] using h1
  | append_singleton ds d ihd =>
    rw [show c :: (ds ++ [d]) = (c :: ds) ++ [d] from rfl, natOfDigits_append_one]
    omega

theorem char_digit_cases (c : Char) (hd : c.isDigit = true) :
    c ∈ ['0', '1', '2', '3', '4', '5', '6', '7', '8', '9'] := by
  simp only [Char.isDigit, Bool.and_eq_true, decide_eq_true_eq] at hd
  obtain ⟨h1, h2⟩ := hd
  have hge : 48 ≤ c.toNat := h1
  have hle : c.toNat ≤ 57 := h2
  have hc : c = Char.ofNat c.toNat := (Char.ofNat_toNat c).symm
  interval_cases hn : c.toNat <;> rw [hc] <;> decide

theorem digitChar_dval (c : Char) (hd : c.isDigit = true) : digitChar (dval c) = c := by
  have h := char_digit_cases c hd
  fin_cases h <;> decide

theorem dval_lt_ten (c : Char) (hd : c.isDigit = true) : dval c < 10 := by
  have h := char_digit_cases c hd
  fin_cases h <;> decide

/-- Whether a character stream begins with a decimal digit. -/
def digitStart : List Char → Bool
  | [] => false
  | c :: _ => c.isDigit

/-- Greedily split a leading run of decimal digits from the stream. -/
def takeDigits : List Char → List Char × List Char
  | [] => ([], [])
  | c :: rest =>
    if c.isDigit then
      ((c :: (takeDigits rest).1, (takeDigits rest).2))
    else ([], c :: rest)

/-- Parse the canonical decimal representation of a natural number:
a maximal digit run, with no redundant leading zero. -/
def parseDigits (s : List Char) : Option (Nat × List Char) :=
  match takeDigits s with
  | ([], _) => none
  | ([c], r) => some (dval c, r)
  | (c :: ds, r) => if c = '0' then none else some (natOfDigits (c :: ds), r)

theorem takeDigits_decomp (s : List Char) :
    s = (takeDigits s).1 ++ (takeDigits s).2
      ∧ (takeDigits s).1.all Char.isDigit = true
      ∧ digitStart (takeDigits s).2 = false := by
  induction s with
  | nil => exact ⟨rfl, rfl, rfl⟩
  | cons c rest ih =>
    by_cases h : c.isDigit
    · refine ⟨?_, ?_, ?_⟩
      · simp only [takeDigits, h, if_true]
        simpa using ih.1
      · simp only [takeDigits, h, if_true]
        simp [h, ih.2.1]
      · simp only [takeDigits, h, if_true]
        exact ih.2.2
    · refine ⟨?_, ?_, ?_⟩ <;> simp [takeDigits, h, digitStart]

theorem takeDigits_append (ds rest : List Char)
    (hall : ds.all Char.isDigit = true) (hr : digitStart rest = false) :
    takeDigits (ds ++ rest) = (ds, rest) := by
  induction ds with
  | nil =>
    cases rest with
    | nil => rfl
    | cons c r =>
      simp only [digitStart] at hr
      simp [takeDigits, hr]
  | cons c ds ih =>
    simp only [List.all_cons, Bool.and_eq_true] at hall
    simp [takeDigits, hall.1, ih hall.2]

theorem encNat_len_two (n : Nat) (h10 : ¬ n < 10) : ∃ c c2 cs2, encNat n = c :: c2 :: cs2 := by
  have he : encNat n = encNat (n / 10) ++ [digitChar (n % 10)] := by
    rw [encNat_unfold]; simp [h10]
  cases hh : encNat (n / 10) with
  | nil => exact absurd hh (encNat_ne_nil (n / 10))
  | cons a l =>
    rw [hh] at he
    cases l with
    | nil => exact ⟨a, digitChar (n % 10), [], by simpa using he⟩
    | cons b l' => exact ⟨a, b, l' ++ [digitChar (n % 10)], by simpa using he⟩

theorem parseDigits_complete (n : Nat) (rest : List Char) (hr : digitStart rest = false) :
    parseDigits (encNat n ++ rest) = some (n, rest) := by
  have hall := encNat_all_digits n
  have htd := takeDigits_append (encNat n) rest hall hr
  by_cases h10 : n < 10
  · have he : encNat n = [digitChar n] := by rw [encNat_unfold]; simp [h10]
    simp only [parseDigits]
    rw [htd, he]
    show some (dval (digitChar n), rest) = some (n, rest)
    rw [dval_digitChar n h10]
  · obtain ⟨c, c2, cs2, hcons⟩ := encNat_len_two n h10
    have hhead := encNat_head_pos n (by omega) c (c2 :: cs2) hcons
    simp only [parseDigits]
    rw [htd, hcons]
    show (if c = '0' then none else some (natOfDigits (c :: c2 :: cs2), rest)) = some (n, rest)
    rw [if_neg hhead.2, ← hcons, natOfDigits_encNat]

theorem natOfDigits_canonical (ds : List Char) (hne : ds ≠ [])
    (hall : ds.all Char.isDigit = true)
    (hhead : ds.head? ≠ some '0' ∨ ds.length = 1) :
    encNat (natOfDigits ds) = ds := by
  induction ds using List.reverseRecOn with
  | nil => exact absurd rfl hne
  | append_singleton ds d ihd =>
    have hd : d.isDigit = true := by
      simp only [List.all_append, List.all_cons, List.all_nil, Bool.and_eq_true] at hall
      exact hall.2.1
    cases ds with
    | nil =>
      simp only [List.nil_append]
      have hone : natOfDigits [d] = dval d := by simp [natOfDigits]
      rw [hone, encNat_unfold]
      simp [dval_lt_ten d hd, digitChar_dval d hd]
    | cons c ds' =>
      have hallc : (c :: ds').all Char.isDigit = true := by
        simp only [List.all_append, Bool.and_eq_true] at hall
        exact hall.1
      have hcd : c.isDigit = true := by
        simp only [List.all_cons, Bool.and_eq_true] at hallc
        exact hallc.1
      have hc0 : c ≠ '0' := by
        rcases hhead with h | h
        · intro hq
          apply h
          simp [hq]
        · simp at h
      have hpos : 1 ≤ natOfDigits (c :: ds') := natOfDigits_pos c ds' hc0 hcd
      rw [show (c :: ds') ++ [d] = c :: ds' ++ [d] from rfl, show c :: ds' ++ [d] = (c :: ds') ++ [d] from rfl, natOfDigits_append_one]
      have h10 : ¬ 10 * natOfDigits (c :: ds') + dval d < 10 := by omega
      rw [encNat_unfold]
      simp only [h10, if_false]
      have hv := dval_lt_ten d hd
      have hdiv : (10 * natOfDigits (c :: ds') + dval d) / 10 = natOfDigits (c :: ds') := by
        omega
      have hmod : (10 * natOfDigits (c :: ds') + dval d) % 10 = dval d := by
        omega
      rw [hdiv, hmod, digitChar_dval d hd]
      rw [ihd (by simp) hallc (Or.inl (by simp [hc0]))]

theorem parseDigits_sound (s : List Char) (m : Nat) (rest : List Char)
    (h : parseDigits s = some (m, rest)) :
    s = encNat m ++ rest ∧ digitStart rest = false := by
  obtain ⟨hdec, hall, hds⟩ := takeDigits_decomp s
  simp only [parseDigits] at h
  cases htd : takeDigits s with
  | mk t1 t2 =>
    rw [htd] at h hdec hall hds
    cases t1 with
    | nil => simp at h
    | cons c ds =>
      simp only [List.all_cons, Bool.and_eq_true] at hall
      cases ds with
      | nil =>
        have h' : some (dval c, t2) = some (m, rest) := h
        have hm : dval c = m := by
          injection h' with hp
          exact (Prod.mk.injEq _ _ _ _ ▸ hp).1
        have hrest : t2 = rest := by
          injection h' with hp
          exact (Prod.mk.injEq _ _ _ _ ▸ hp).2
        subst hm
        subst hrest
        refine ⟨?_, hds⟩
        rw [hdec]
        have hc : encNat (dval c) = [c] := by
          rw [encNat_unfold]
          simp [dval_lt_ten c hall.1, digitChar_dval c hall.1]
        rw [hc]
      | cons c2 ds2 =>
        have h' : (if c = '0' then none
            else some (natOfDigits (c :: c2 :: ds2), t2)) = some (m, rest) := h
        by_cases hc0 : c = '0'
        · rw [if_pos hc0] at h'
          exact absurd h' (by simp)
        · rw [if_neg hc0] at h'
          have hm : natOfDigits (c :: c2 :: ds2) = m := by
            injection h' with hp
            exact (Prod.mk.injEq _ _ _ _ ▸ hp).1
          have hrest : t2 = rest := by
            injection h' with hp
            exact (Prod.mk.injEq _ _ _ _ ▸ hp).2
          subst hm
          subst hrest
          refine ⟨?_, hds⟩
          rw [hdec, natOfDigits_canonical]
          · simp
          · obtain ⟨ha1, ha2⟩ := hall
            simp only [List.all_cons, Bool.and_eq_true] at ha2 ⊢
            exact ⟨ha1, ha2⟩
          · exact Or.inl (by simp [hc0])

/-- Inverse of `escChar` on escape codes: the character denoted by the
two-character escape `'\\' e`. -/
def unescChar (e : Char) : Option Char :=
  if e = '\\' then some '\\'
  else if e = '"' then some '"'
  else if e = 'n' then some '\n'
  else none

/-- Body of a JSON string literal after the opening quote: characters up
to the closing quote, honouring escapes; raw newlines are rejected (as
`json.loads` does in strict mode). Fuel-driven; one unit per step. -/
def parseStrAux : Nat → List Char → Option (List Char × List Char)
  | 0, _ => none
  | fuel + 1, s =>
    match s with
    | [] => none
    | c :: rest =>
      if c = '"' then some ([], rest)
      else if c = '\\' then
        match rest with
        | [] => none
        | e :: rest2 =>
          match unescChar e, parseStrAux fuel rest2 with
          | some u, some r => some (u :: r.1, r.2)
          | _, _ => none
      else if c = '\n' then none
      else
        match parseStrAux fuel rest with
        | some r => some (c :: r.1, r.2)
        | none => none

theorem escChar_unesc (e u : Char) (h : unescChar e = some u) : escChar u = ['\\', e] := by
  unfold unescChar at h
  by_cases h1 : e = '\\'
  · rw [if_pos h1] at h
    injection h with hu
    subst hu
    subst h1
    rfl
  · rw [if_neg h1] at h
    by_cases h2 : e = '"'
    · rw [if_pos h2] at h
      injection h with hu
      subst hu
      subst h2
      rfl
    · rw [if_neg h2] at h
      by_cases h3 : e = 'n'
      · rw [if_pos h3] at h
        injection h with hu
        subst hu
        subst h3
        rfl
      · rw [if_neg h3] at h
        exact absurd h (by simp)

theorem parseStrAux_complete (cs : List Char) : ∀ fuel rest, cs.length < fuel →
    parseStrAux fuel (escStr cs ++ '"' :: rest) = some (cs, rest) := by
  induction cs with
  | nil =>
    intro fuel rest hf
    cases fuel with
    | zero => omega
    | succ f => rfl
  | cons c cs ih =>
    intro fuel rest hf
    cases fuel with
    | zero => omega
    | succ f =>
      have hlt : cs.length < f := by
        simp only [List.length_cons] at hf
        omega
      by_cases hb : c = '\\'
      · subst hb
        show parseStrAux (f + 1) (('\\' :: '\\' :: escStr cs) ++ '"' :: rest) = _
        simp only [List.cons_append, parseStrAux]
        simp only [if_true]
        show (match unescChar '\\', parseStrAux f (escStr cs ++ '"' :: rest) with
          | some u, some r => some (u :: r.1, r.2)
          | _, _ => none) = _
        rw [ih f rest hlt]
        rfl
      · by_cases hq : c = '"'
        · subst hq
          show parseStrAux (f + 1) (('\\' :: '"' :: escStr cs) ++ '"' :: rest) = _
          simp only [List.cons_append, parseStrAux]
          simp only [if_true]
          show (match unescChar '"', parseStrAux f (escStr cs ++ '"' :: rest) with
            | some u, some r => some (u :: r.1, r.2)
            | _, _ => none) = _
          rw [ih f rest hlt]
          rfl
        · by_cases hn : c = '\n'
          · subst hn
            show parseStrAux (f + 1) (('\\' :: 'n' :: escStr cs) ++ '"' :: rest) = _
            simp only [List.cons_append, parseStrAux]
            simp only [if_true]
            show (match unescChar 'n', parseStrAux f (escStr cs ++ '"' :: rest) with
              | some u, some r => some (u :: r.1, r.2)
              | _, _ => none) = _
            rw [ih f rest hlt]
            rfl
          · show parseStrAux (f + 1) ((escChar c ++ escStr cs) ++ '"' :: rest) = _
            have hec : escChar c = [c] := by
              unfold escChar
              rw [if_neg hb, if_neg hq, if_neg hn]
            rw [hec]
            simp only [List.cons_append, List.nil_append, parseStrAux]
            rw [if_neg hq, if_neg hb, if_neg hn]
            rw [ih f rest hlt]

theorem parseStrAux_sound : ∀ fuel s cs rest, parseStrAux fuel s = some (cs, rest) →
    s = escStr cs ++ '"' :: rest := by
  intro fuel
  induction fuel with
  | zero =>
    intro s cs rest h
    exact absurd h (by simp [parseStrAux])
  | succ f ih =>
    intro s cs rest h
    cases s with
    | nil => exact absurd h (by simp [parseStrAux])
    | cons c rest0 =>
      by_cases hq : c = '"'
      · subst hq
        have h' : some (([] : List Char), rest0) = some (cs, rest) := h
        injection h' with hp
        have hcs : ([] : List Char) = cs := (Prod.mk.injEq _ _ _ _ ▸ hp).1
        have hr : rest0 = rest := (Prod.mk.injEq _ _ _ _ ▸ hp).2
        subst hcs
        subst hr
        rfl
      · by_cases hb : c = '\\'
        · subst hb
          cases rest0 with
          | nil => exact absurd h (by simp [parseStrAux])
          | cons e rest2 =>
            have h' : (match unescChar e, parseStrAux f rest2 with
              | some u, some r => some (u :: r.1, r.2)
              | _, _ => none) = some (cs, rest) := h
            cases hu : unescChar e with
            | none => rw [hu] at h'; exact absurd h' (by simp)
            | some u =>
              cases hp : parseStrAux f rest2 with
              | none => rw [hu, hp] at h'; exact absurd h' (by simp)
              | some r =>
                rw [hu, hp] at h'
                have h'' : some (u :: r.1, r.2) = some (cs, rest) := h'
                injection h'' with hpair
                have hcs : u :: r.1 = cs := (Prod.mk.injEq _ _ _ _ ▸ hpair).1
                have hr : r.2 = rest := (Prod.mk.injEq _ _ _ _ ▸ hpair).2
                subst hcs
                subst hr
                have hrec := ih rest2 r.1 r.2 hp
                show '\\' :: e :: rest2 = (escChar u ++ escStr r.1) ++ '"' :: r.2
                rw [escChar_unesc e u hu, hrec]
                rfl
        · by_cases hn : c = '\n'
          · subst hn
            have h' : (none : Option (List Char × List Char)) = some (cs, rest) := by
              rw [← h]
              show none = parseStrAux (f + 1) ('\n' :: rest0)
              simp [parseStrAux, hq]
            exact absurd h'.symm (by simp)
          · have h' : (match parseStrAux f rest0 with
              | some r => some (c :: r.1, r.2)
              | none => none) = some (cs, rest) := by
              rw [← h]
              show _ = parseStrAux (f + 1) (c :: rest0)
              simp only [parseStrAux]
              rw [if_neg hq, if_neg hb, if_neg hn]
            cases hp : parseStrAux f rest0 with
            | none => rw [hp] at h'; exact absurd h' (by simp)
            | some r =>
              rw [hp] at h'
              injection h' with hpair
              have hcs : c :: r.1 = cs := (Prod.mk.injEq _ _ _ _ ▸ hpair).1
              have hr : r.2 = rest := (Prod.mk.injEq _ _ _ _ ▸ hpair).2
              subst hcs
              subst hr
              have hrec := ih rest0 r.1 r.2 hp
              show c :: rest0 = (escChar c ++ escStr r.1) ++ '"' :: r.2
              have hec : escChar c = [c] := by
                unfold escChar
                rw [if_neg hb, if_neg hq, if_neg hn]
              rw [hec, hrec]
              rfl

/-- Consume an expected literal character sequence. -/
def expectLit : List Char → List Char → Option (List Char)
  | [], s => some s
  | _ :: _, [] => none
  | c :: cs, x :: xs => if x = c then expectLit cs xs else none

theorem expectLit_self (lit rest : List Char) : expectLit lit (lit ++ rest) = some rest := by
  induction lit with
  | nil => rfl
  | cons c cs ih => simp [expectLit, ih]

theorem expectLit_sound : ∀ lit s rest, expectLit lit s = some rest → s = lit ++ rest := by
  intro lit
  induction lit with
  | nil =>
    intro s rest h
    have h2 : s = rest := by simpa [expectLit] using h
    simp [h2]
  | cons c cs ih =>
    intro s rest h
    cases s with
    | nil => exact absurd h (by simp [expectLit])
    | cons x xs =>
      by_cases hx : x = c
      · subst hx
        have h' : expectLit cs xs = some rest := by
          simpa [expectLit] using h
        rw [ih xs rest h']
        rfl
      · rw [expectLit, if_neg hx] at h
        exact absurd h (by simp)

mutual
/-- Canonical JSON text parser: accepts exactly the output of `encJ` (the
`json.dumps` format used by the WAL and snapshot writers). It models
`json.loads` on the values this system reads back. Fuel-driven; `fuel`
exceeding the text length is always sufficient. -/
def parseJ : Nat → List Char → Option (Jval × List Char)
  | 0, _ => none
  | fuel + 1, s =>
    match s with
    | [] => none
    | c :: rest =>
      if c = 'n' then
        match expectLit "ull".data rest with
        | some r => some (.null, r)
        | none => none
      else if c = 't' then
        match expectLit "rue".data rest with
        | some r => some (.bool true, r)
        | none => none
      else if c = 'f' then
        match expectLit "alse".data rest with
        | some r => some (.bool false, r)
        | none => none
      else if c = '"' then
        match parseStrAux fuel rest with
        | some r => some (.str (String.mk r.1), r.2)
        | none => none
      else if c = '[' then
        match rest with
        | [] => none
        | c2 :: r2 =>
          if c2 = ']' then some (.arr [], r2)
          else
            match parseElems fuel rest with
            | some (vs, r) =>
              match r with
              | c3 :: r3 => if c3 = ']' then some (.arr vs, r3) else none
              | [] => none
            | none => none
      else if c = '\x7b' then
        match rest with
        | [] => none
        | c2 :: r2 =>
          if c2 = '\x7d' then some (.obj [], r2)
          else
            match parseMembers fuel rest with
            | some (fs, r) =>
              match r with
              | c3 :: r3 => if c3 = '\x7d' then some (.obj fs, r3) else none
              | [] => none
            | none => none
      else if c = '-' then
        match parseDigits rest with
        | some (m, r) => if m = 0 then none else some (.int (-(m : Int)), r)
        | none => none
      else if c.isDigit then
        match parseDigits (c :: rest) with
        | some (m, r) => some (.int (m : Int), r)
        | none => none
      else none

/-- One or more `", "`-separated array elements. -/
def parseElems : Nat → List Char → Option (List Jval × List Char)
  | 0, _ => none
  | fuel + 1, s =>
    match parseJ fuel s with
    | none => none
    | some (v, r) =>
      match r with
      | c1 :: c2 :: r2 =>
        if c1 = ',' then
          if c2 = ' ' then
            match parseElems fuel r2 with
            | some (vs, r3) => some (v :: vs, r3)
            | none => none
          else some ([v], r)
        else some ([v], r)
      | _ => some ([v], r)

/-- One or more `", "`-separated object members (`"key": value`). -/
def parseMembers : Nat → List Char → Option (List (String × Jval) × List Char)
  | 0, _ => none
  | fuel + 1, s =>
    match s with
    | [] => none
    | c :: rest =>
      if c = '"' then
        match parseStrAux fuel rest with
        | none => none
        | some (kcs, r1) =>
          match r1 with
          | c1 :: c2 :: r2 =>
            if c1 = ':' then
              if c2 = ' ' then
                match parseJ fuel r2 with
                | none => none
                | some (v, r3) =>
                  match r3 with
                  | d1 :: d2 :: r4 =>
                    if d1 = ',' then
                      if d2 = ' ' then
                        match parseMembers fuel r4 with
                        | some (fs, r5) => some ((String.mk kcs, v) :: fs, r5)
                        | none => none
                      else some ([(String.mk kcs, v)], r3)
                    else some ([(String.mk kcs, v)], r3)
                  | _ => some ([(String.mk kcs, v)], r3)
              else none
            else none
          | _ => none
      else none
end

/-- `json.loads(s)`: the whole text must be one canonical JSON value. -/
def jsonLoads (s : List Char) : Option Jval :=
  match parseJ (s.length + 1) s with
  | some (v, []) => some v
  | _ => none

theorem strMk_data (s : String) : String.mk s.data = s := rfl

theorem encJ_shape (v : Jval) : ∃ c cs, encJ v = c :: cs ∧
    (c = 'n' ∨ c = 't' ∨ c = 'f' ∨ c = '"' ∨ c = '[' ∨ c = '\x7b' ∨ c = '-' ∨ c.isDigit = true) := by
  cases v with
  | null => exact ⟨'n', "ull".data, rfl, by simp⟩
  | bool b =>
    cases b with
    | true => exact ⟨'t', "rue".data, rfl, by simp⟩
    | false => exact ⟨'f', "alse".data, rfl, by simp⟩
  | int n =>
    by_cases hn : n < 0
    · exact ⟨'-', encNat (-n).toNat, by simp [encJ, encInt, hn], by simp⟩
    · have hall := encNat_all_digits n.toNat
      cases he : encNat n.toNat with
      | nil => exact absurd he (encNat_ne_nil n.toNat)
      | cons c cs =>
        refine ⟨c, cs, by simp [encJ, encInt, hn, he], ?_⟩
        rw [he] at hall
        simp only [List.all_cons, Bool.and_eq_true] at hall
        exact Or.inr (Or.inr (Or.inr (Or.inr (Or.inr (Or.inr (Or.inr hall.1))))))
  | str s => exact ⟨'"', escStr s.data ++ ['"'], rfl, by simp⟩
  | arr l =>
    cases l with
    | nil => exact ⟨'[', [']'], rfl, by simp⟩
    | cons v vs => exact ⟨'[', (encJ v ++ encElems vs) ++ [']'], rfl, by simp⟩
  | obj l =>
    cases l with
    | nil => exact ⟨'\x7b', ['\x7d'], rfl, by simp⟩
    | cons p fs =>
      exact ⟨'\x7b', (encStr p.1 ++ (':' :: ' ' :: encJ p.2) ++ encFields fs) ++ ['\x7d'],
        by cases p; rfl, by simp⟩

theorem encJ_head_ne (v : Jval) (c : Char) (cs : List Char) (h : encJ v = c :: cs) :
    c ≠ ']' ∧ c ≠ '\x7d' ∧ c ≠ ',' := by
  obtain ⟨c', cs', he, hmem⟩ := encJ_shape v
  rw [he] at h
  injection h with h1 h2
  subst h1
  rcases hmem with h | h | h | h | h | h | h | h
  · subst h; exact ⟨by decide, by decide, by decide⟩
  · subst h; exact ⟨by decide, by decide, by decide⟩
  · subst h; exact ⟨by decide, by decide, by decide⟩
  · subst h; exact ⟨by decide, by decide, by decide⟩
  · subst h; exact ⟨by decide, by decide, by decide⟩
  · subst h; exact ⟨by decide, by decide, by decide⟩
  · subst h; exact ⟨by decide, by decide, by decide⟩
  · have := char_digit_cases c' h
    fin_cases this <;> exact ⟨by decide, by decide, by decide⟩

theorem encJ_ne_nil (v : Jval) : encJ v ≠ [] := by
  obtain ⟨c, cs, he, _⟩ := encJ_shape v
  simp [he]

theorem some_pair_inj {α β : Type} {a c : α} {b d : β}
    (h : (some (a, b) : Option (α × β)) = some (c, d)) : a = c ∧ b = d := by
  injection h with hp
  exact ⟨(Prod.mk.injEq _ _ _ _ ▸ hp).1, (Prod.mk.injEq _ _ _ _ ▸ hp).2⟩



theorem parser_sound : ∀ fuel,
    (∀ s v rest, parseJ fuel s = some (v, rest) → s = encJ v ++ rest)
    ∧ (∀ s vs rest, parseElems fuel s = some (vs, rest) →
        ∃ w vs', vs = w :: vs' ∧ s = (encJ w ++ encElems vs') ++ rest)
    ∧ (∀ s fs rest, parseMembers fuel s = some (fs, rest) →
        ∃ k v fs', fs = (k, v) :: fs'
          ∧ s = (encStr k ++ (':' :: ' ' :: encJ v) ++ encFields fs') ++ rest) := by
  intro fuel
  induction fuel with
  | zero =>
    refine ⟨?_, ?_, ?_⟩
    · intro s v rest h; exact absurd h (by simp [parseJ])
    · intro s vs rest h; exact absurd h (by simp [parseElems])
    · intro s fs rest h; exact absurd h (by simp [parseMembers])
  | succ f ih =>
    obtain ⟨ihJ, ihE, ihM⟩ := ih
    refine ⟨?_, ?_, ?_⟩
    · intro s v rest h
      cases s with
      | nil => simp [parseJ] at h
      | cons c rest0 =>
        simp only [parseJ] at h
        by_cases h1 : c = 'n'
        · rw [if_pos h1] at h
          split at h
          · rename_i r heq
            obtain ⟨hv, hr⟩ := some_pair_inj h
            subst hv; subst hr; subst h1
            rw [expectLit_sound _ _ _ heq]
            rfl
          · simp at h
        · rw [if_neg h1] at h
          by_cases h2 : c = 't'
          · rw [if_pos h2] at h
            split at h
            · rename_i r heq
              obtain ⟨hv, hr⟩ := some_pair_inj h
              subst hv; subst hr; subst h2
              rw [expectLit_sound _ _ _ heq]
              rfl
            · simp at h
          · rw [if_neg h2] at h
            by_cases h3 : c = 'f'
            · rw [if_pos h3] at h
              split at h
              · rename_i r heq
                obtain ⟨hv, hr⟩ := some_pair_inj h
                subst hv; subst hr; subst h3
                rw [expectLit_sound _ _ _ heq]
                rfl
              · simp at h
            · rw [if_neg h3] at h
              by_cases h4 : c = '"'
              · rw [if_pos h4] at h
                split at h
                · rename_i r heq
                  obtain ⟨hv, hr⟩ := some_pair_inj h
                  subst hv; subst hr; subst h4
                  rw [parseStrAux_sound f rest0 r.1 r.2 (by rw [heq])]
                  simp [encJ, encStr]
                · simp at h
              · rw [if_neg h4] at h
                by_cases h5 : c = '['
                · rw [if_pos h5] at h
                  split at h
                  · simp at h
                  · rename_i c2 r2
                    by_cases hc2 : c2 = ']'
                    · rw [if_pos hc2] at h
                      obtain ⟨hv, hr⟩ := some_pair_inj h
                      subst hv; subst hr; subst h5; subst hc2
                      rfl
                    · rw [if_neg hc2] at h
                      split at h
                      · rename_i vs r heq
                        split at h
                        · rename_i c3 r3
                          by_cases hc3 : c3 = ']'
                          · rw [if_pos hc3] at h
                            obtain ⟨hv, hr⟩ := some_pair_inj h
                            subst hv; subst hr; subst h5; subst hc3
                            obtain ⟨w, vs', hvs, hdec⟩ := ihE (c2 :: r2) vs (']' :: r3) heq
                            subst hvs
                            rw [hdec]
                            simp [encJ]
                          · rw [if_neg hc3] at h
                            simp at h
                        · simp at h
                      · simp at h
                · rw [if_neg h5] at h
                  by_cases h6 : c = '\x7b'
                  · rw [if_pos h6] at h
                    split at h
                    · simp at h
                    · rename_i c2 r2
                      by_cases hc2 : c2 = '\x7d'
                      · rw [if_pos hc2] at h
                        obtain ⟨hv, hr⟩ := some_pair_inj h
                        subst hv; subst hr; subst h6; subst hc2
                        rfl
                      · rw [if_neg hc2] at h
                        split at h
                        · rename_i fs r heq
                          split at h
                          · rename_i c3 r3
                            by_cases hc3 : c3 = '\x7d'
                            · rw [if_pos hc3] at h
                              obtain ⟨hv, hr⟩ := some_pair_inj h
                              subst hv; subst hr; subst h6; subst hc3
                              obtain ⟨k, w, fs', hfs, hdec⟩ := ihM (c2 :: r2) fs ('\x7d' :: r3) heq
                              subst hfs
                              rw [hdec]
                              simp [encJ]
                            · rw [if_neg hc3] at h
                              simp at h
                          · simp at h
                        · simp at h
                  · rw [if_neg h6] at h
                    by_cases h7 : c = '-'
                    · rw [if_pos h7] at h
                      split at h
                      · rename_i m r heq
                        by_cases hm : m = 0
                        · rw [if_pos hm] at h; simp at h
                        · rw [if_neg hm] at h
                          obtain ⟨hv, hr⟩ := some_pair_inj h
                          subst hv; subst hr; subst h7
                          obtain ⟨hdec, _⟩ := parseDigits_sound rest0 m r heq
                          rw [hdec]
                          have henc : encJ (.int (-(m : Int))) = '-' :: encNat m := by
                            simp only [encJ, encInt, if_pos (show -(m : Int) < 0 by omega)]
                            have harg : (- -(m : Int)).toNat = m := by omega
                            rw [harg]
                          rw [henc]
                          rfl
                      · simp at h
                    · rw [if_neg h7] at h
                      by_cases h8 : c.isDigit
                      · rw [if_pos h8] at h
                        split at h
                        · rename_i m r heq
                          obtain ⟨hv, hr⟩ := some_pair_inj h
                          subst hv; subst hr
                          obtain ⟨hdec, _⟩ := parseDigits_sound (c :: rest0) m r heq
                          rw [hdec]
                          have henc : encJ (.int (m : Int)) = encNat m := by
                            simp only [encJ, encInt, if_neg (show ¬ (m : Int) < 0 by omega)]
                            have harg : ((m : Int)).toNat = m := by omega
                            rw [harg]
                          rw [henc]
                        · simp at h
                      · rw [if_neg h8] at h
                        simp at h
    · intro s vs rest h
      simp only [parseElems] at h
      split at h
      · simp at h
      · rename_i v r heq
        have hs := ihJ s v r heq
        split at h
        · rename_i c1 c2 r2
          by_cases hc1 : c1 = ','
          · rw [if_pos hc1] at h
            by_cases hc2 : c2 = ' '
            · rw [if_pos hc2] at h
              split at h
              · rename_i vs2 r3 heq2
                obtain ⟨hv, hr⟩ := some_pair_inj h
                subst hv; subst hr; subst hc1; subst hc2
                obtain ⟨w, vs', hvs, hdec⟩ := ihE r2 vs2 r3 heq2
                subst hvs
                refine ⟨v, w :: vs', rfl, ?_⟩
                rw [hs, hdec]
                simp [encElems]
              · simp at h
            · rw [if_neg hc2] at h
              obtain ⟨hv, hr⟩ := some_pair_inj h
              subst hv; subst hr
              exact ⟨v, [], rfl, by simpa [encElems] using hs⟩
          · rw [if_neg hc1] at h
            obtain ⟨hv, hr⟩ := some_pair_inj h
            subst hv; subst hr
            exact ⟨v, [], rfl, by simpa [encElems] using hs⟩
        · obtain ⟨hv, hr⟩ := some_pair_inj h
          subst hv; subst hr
          exact ⟨v, [], rfl, by simpa [encElems] using hs⟩
    · intro s fs rest h
      cases s with
      | nil => simp [parseMembers] at h
      | cons c rest0 =>
        simp only [parseMembers] at h
        by_cases hc : c = '"'
        · rw [if_pos hc] at h
          split at h
          · simp at h
          · rename_i kcs r1 heqs
            have hs0 : rest0 = escStr kcs ++ '"' :: r1 :=
              parseStrAux_sound f rest0 kcs r1 heqs
            split at h
            · rename_i c1 c2 r2
              by_cases hc1 : c1 = ':'
              · rw [if_pos hc1] at h
                by_cases hc2 : c2 = ' '
                · rw [if_pos hc2] at h
                  split at h
                  · simp at h
                  · rename_i v r3 heqv
                    have hdecv := ihJ r2 v r3 heqv
                    subst hc; subst hc1; subst hc2
                    split at h
                    · rename_i d1 d2 r4
                      by_cases hd1 : d1 = ','
                      · rw [if_pos hd1] at h
                        by_cases hd2 : d2 = ' '
                        · rw [if_pos hd2] at h
                          split at h
                          · rename_i fs2 r5 heqm
                            obtain ⟨hfs, hr⟩ := some_pair_inj h
                            subst hfs; subst hr; subst hd1; subst hd2
                            obtain ⟨k2, v2, fs'', hfs2, hdec2⟩ := ihM r4 fs2 r5 heqm
                            subst hfs2
                            refine ⟨String.mk kcs, v, (k2, v2) :: fs'', rfl, ?_⟩
                            rw [hs0, hdecv, hdec2]
                            simp [encStr, encFields]
                          · simp at h
                        · rw [if_neg hd2] at h
                          obtain ⟨hfs, hr⟩ := some_pair_inj h
                          subst hfs; subst hr
                          refine ⟨String.mk kcs, v, [], rfl, ?_⟩
                          rw [hs0, hdecv]
                          simp [encStr, encFields]
                      · rw [if_neg hd1] at h
                        obtain ⟨hfs, hr⟩ := some_pair_inj h
                        subst hfs; subst hr
                        refine ⟨String.mk kcs, v, [], rfl, ?_⟩
                        rw [hs0, hdecv]
                        simp [encStr, encFields]
                    · obtain ⟨hfs, hr⟩ := some_pair_inj h
                      subst hfs; subst hr
                      refine ⟨String.mk kcs, v, [], rfl, ?_⟩
                      rw [hs0, hdecv]
                      simp [encStr, encFields]
                · rw [if_neg hc2] at h
                  simp at h
              · rw [if_neg hc1] at h
                simp at h
            · simp at h
        · rw [if_neg hc] at h
          simp at h

theorem escStr_len_ge (cs : List Char) : cs.length ≤ (escStr cs).length := by
  induction cs with
  | nil => simp [escStr]
  | cons c cs ih =>
    have hc : 1 ≤ (escChar c).length := by
      unfold escChar
      split_ifs <;> simp
    simp only [escStr, List.length_append, List.length_cons]
    omega

theorem encJ_len_pos (v : Jval) : 1 ≤ (encJ v).length := by
  obtain ⟨c, cs, he, _⟩ := encJ_shape v
  simp [he]

theorem digit_not_special (c : Char) (hd : c.isDigit = true) :
    c ≠ 'n' ∧ c ≠ 't' ∧ c ≠ 'f' ∧ c ≠ '"' ∧ c ≠ '[' ∧ c ≠ '\x7b' ∧ c ≠ '-' := by
  have h := char_digit_cases c hd
  fin_cases h <;>
    exact ⟨by decide, by decide, by decide, by decide, by decide, by decide, by decide⟩

theorem digitStart_encElems (vs : List Jval) (rest : List Char)
    (hd : digitStart rest = false) : digitStart (encElems vs ++ rest) = false := by
  cases vs with
  | nil => simpa [encElems]
  | cons w vs => simp [encElems, digitStart]

theorem digitStart_encFields (fs : List (String × Jval)) (rest : List Char)
    (hd : digitStart rest = false) : digitStart (encFields fs ++ rest) = false := by
  cases fs with
  | nil => simpa [encFields]
  | cons p fs => cases p; simp [encFields, digitStart]


/-- The last element of a nonempty array, written `lastElemJ w vs` for the
array `w :: vs`. -/
def lastElemJ : Jval → List Jval → Jval
  | w, [] => w
  | _, w2 :: vs => lastElemJ w2 vs

/-- The last member value of a nonempty object, written `lastValM v fs`
for the object `(k, v) :: fs`. -/
def lastValM : Jval → List (String × Jval) → Jval
  | v, [] => v
  | _, p :: fs => lastValM p.2 fs

/-- What must hold of the text following an encoded value so that the
parser stops exactly at the value boundary: only integers (whose digit
runs are read greedily) constrain it. -/
def extOk (v : Jval) (rest : List Char) : Prop :=
  match v with
  | .int _ => digitStart rest = false
  | _ => True

theorem extOk_of_not_digit (v : Jval) (c : Char) (xs : List Char)
    (h : c.isDigit = false) : extOk v (c :: xs) := by
  cases v <;> simp [extOk, digitStart, h]

theorem extOk_nil (v : Jval) : extOk v [] := by
  cases v <;> simp [extOk, digitStart]

theorem extOk_encElems_cons (v w2 : Jval) (vs' : List Jval) (rest : List Char) :
    extOk v (encElems (w2 :: vs') ++ rest) := by
  cases v <;> simp [extOk, encElems, digitStart]

theorem extOk_encFields_cons (v : Jval) (k2 : String) (v2 : Jval)
    (fs' : List (String × Jval)) (rest : List Char) :
    extOk v (encFields ((k2, v2) :: fs') ++ rest) := by
  cases v <;> simp [extOk, encFields, digitStart]

mutual
theorem parseJ_complete : ∀ (v : Jval) (fuel : Nat) (rest : List Char), (encJ v).length < fuel →
    extOk v rest → parseJ fuel (encJ v ++ rest) = some (v, rest)
  | .null, fuel, rest, hf, hd => by
    cases fuel with
    | zero => exact absurd hf (Nat.not_lt_zero _)
    | succ f =>
      show parseJ (f + 1) ('n' :: 'u' :: 'l' :: 'l' :: rest) = some (.null, rest)
      simp [parseJ, expectLit]
  | .bool true, fuel, rest, hf, hd => by
    cases fuel with
    | zero => exact absurd hf (Nat.not_lt_zero _)
    | succ f =>
      show parseJ (f + 1) ('t' :: 'r' :: 'u' :: 'e' :: rest) = some (.bool true, rest)
      simp [parseJ, expectLit]
  | .bool false, fuel, rest, hf, hd => by
    cases fuel with
    | zero => exact absurd hf (Nat.not_lt_zero _)
    | succ f =>
      show parseJ (f + 1) ('f' :: 'a' :: 'l' :: 's' :: 'e' :: rest) = some (.bool false, rest)
      simp [parseJ, expectLit]
  | .int n, fuel, rest, hf, hd => by
    have hd' : digitStart rest = false := hd
    cases fuel with
    | zero => exact absurd hf (Nat.not_lt_zero _)
    | succ f =>
      by_cases hn : n < 0
      · have henc : encJ (.int n) = '-' :: encNat (-n).toNat := by
          simp [encJ, encInt, hn]
        rw [show encJ (.int n) ++ rest = '-' :: (encNat (-n).toNat ++ rest) by rw [henc]; rfl]
        simp only [parseJ]
        simp only [Char.reduceEq, reduceIte]
        rw [parseDigits_complete (-n).toNat rest hd']
        dsimp only
        rw [if_neg (show ¬ (-n).toNat = 0 by omega)]
        rw [show -(((-n).toNat : Nat) : Int) = n by omega]
      · have henc : encJ (.int n) = encNat n.toNat := by
          simp [encJ, encInt, hn]
        obtain ⟨c, cs, hcons⟩ : ∃ c cs, encNat n.toNat = c :: cs := by
          cases hh : encNat n.toNat with
          | nil => exact absurd hh (encNat_ne_nil _)
          | cons c cs => exact ⟨c, cs, rfl⟩
        have hcd : c.isDigit = true := by
          have hall := encNat_all_digits n.toNat
          rw [hcons] at hall
          simp only [List.all_cons, Bool.and_eq_true] at hall
          exact hall.1
        obtain ⟨hs1, hs2, hs3, hs4, hs5, hs6, hs7⟩ := digit_not_special c hcd
        rw [show encJ (.int n) ++ rest = c :: (cs ++ rest) by rw [henc, hcons]; rfl]
        simp only [parseJ]
        rw [if_neg hs1, if_neg hs2, if_neg hs3, if_neg hs4, if_neg hs5, if_neg hs6,
          if_neg hs7, if_pos hcd]
        rw [show c :: (cs ++ rest) = encNat n.toNat ++ rest by rw [hcons]; rfl]
        rw [parseDigits_complete n.toNat rest hd']
        dsimp only
        rw [show ((n.toNat : Nat) : Int) = n by omega]
  | .str s, fuel, rest, hf, hd => by
    cases fuel with
    | zero => exact absurd hf (Nat.not_lt_zero _)
    | succ f =>
      have hb : s.data.length < f := by
        have h1 := escStr_len_ge s.data
        have h2 : (encJ (.str s)).length = (escStr s.data).length + 2 := by
          simp [encJ, encStr]
        omega
      rw [show encJ (.str s) ++ rest = '"' :: (escStr s.data ++ '"' :: rest) by
        simp [encJ, encStr]]
      simp only [parseJ]
      simp only [Char.reduceEq, reduceIte]
      rw [parseStrAux_complete s.data f rest hb]
  | .arr [], fuel, rest, hf, hd => by
    cases fuel with
    | zero => exact absurd hf (Nat.not_lt_zero _)
    | succ f =>
      show parseJ (f + 1) ('[' :: ']' :: rest) = some (.arr [], rest)
      simp [parseJ]
  | .arr (w :: vs), fuel, rest, hf, hd => by
    cases fuel with
    | zero => exact absurd hf (Nat.not_lt_zero _)
    | succ f =>
      obtain ⟨c2, cs2, hw⟩ : ∃ c2 cs2, encJ w = c2 :: cs2 := by
        cases hh : encJ w with
        | nil => exact absurd hh (encJ_ne_nil w)
        | cons c2 cs2 => exact ⟨c2, cs2, rfl⟩
      obtain ⟨hne1, _, _⟩ := encJ_head_ne w c2 cs2 hw
      have hb : (encJ w).length + (encElems vs).length + 1 < f := by
        have h2 : (encJ (.arr (w :: vs))).length
            = (encJ w).length + (encElems vs).length + 2 := by
          simp [encJ]
          omega
        omega
      rw [show encJ (.arr (w :: vs)) ++ rest
          = '[' :: (c2 :: (cs2 ++ (encElems vs ++ (']' :: rest)))) by
        rw [show encJ (.arr (w :: vs)) = '[' :: ((encJ w ++ encElems vs) ++ [']']) from rfl, hw]
        simp]
      simp only [parseJ]
      simp only [Char.reduceEq, reduceIte]
      rw [if_neg hne1]
      rw [show c2 :: (cs2 ++ (encElems vs ++ (']' :: rest)))
          = (encJ w ++ encElems vs) ++ (']' :: rest) by rw [hw]; simp]
      rw [parseElems_complete w vs f (']' :: rest) hb
        (extOk_of_not_digit _ _ _ (by decide))
        (by intro hcc; simp only [List.head?] at hcc; injection hcc with hcc; exact absurd hcc (by decide))]
      rfl
  | .obj [], fuel, rest, hf, hd => by
    cases fuel with
    | zero => exact absurd hf (Nat.not_lt_zero _)
    | succ f =>
      show parseJ (f + 1) ('\x7b' :: '\x7d' :: rest) = some (.obj [], rest)
      simp [parseJ]
  | .obj ((k, v) :: fs), fuel, rest, hf, hd => by
    cases fuel with
    | zero => exact absurd hf (Nat.not_lt_zero _)
    | succ f =>
      have hb : (encStr k).length + 2 + (encJ v).length + (encFields fs).length + 1 < f := by
        have h2 : (encJ (.obj ((k, v) :: fs))).length
            = (encStr k).length + 2 + (encJ v).length + (encFields fs).length + 2 := by
          simp [encJ]
          omega
        omega
      rw [show encJ (.obj ((k, v) :: fs)) ++ rest
          = '\x7b' :: ('"' :: (escStr k.data ++ ('"' :: (':' :: ' ' :: (encJ v ++ (encFields fs ++ ('\x7d' :: rest))))))) by
        rw [show encJ (.obj ((k, v) :: fs))
            = '\x7b' :: ((encStr k ++ (':' :: ' ' :: encJ v) ++ encFields fs) ++ ['\x7d']) from rfl]
        simp [encStr]]
      simp only [parseJ]
      simp only [Char.reduceEq, reduceIte]
      rw [show '"' :: (escStr k.data ++ ('"' :: (':' :: ' ' :: (encJ v ++ (encFields fs ++ ('\x7d' :: rest))))))
          = (encStr k ++ (':' :: ' ' :: encJ v) ++ encFields fs) ++ ('\x7d' :: rest) by
        simp [encStr]]
      rw [parseMembers_complete k v fs f ('\x7d' :: rest) hb
        (extOk_of_not_digit _ _ _ (by decide))
        (by intro hcc; simp only [List.head?] at hcc; injection hcc with hcc; exact absurd hcc (by decide))]
      rfl
termination_by v => (encJ v).length
decreasing_by
  all_goals simp_wf
  all_goals simp only [encJ, encStr, encElems, encFields, List.length_cons, List.length_append]
  all_goals omega

theorem parseElems_complete : ∀ (w : Jval) (vs : List Jval) (fuel : Nat) (rest : List Char),
    (encJ w).length + (encElems vs).length + 1 < fuel → extOk (lastElemJ w vs) rest →
    (rest.head? = some ',' → False) →
    parseElems fuel ((encJ w ++ encElems vs) ++ rest) = some (w :: vs, rest)
  | w, [], fuel, rest, hf, hd, hcomma => by
    cases fuel with
    | zero => exact absurd hf (Nat.not_lt_zero _)
    | succ f =>
      simp only [parseElems]
      rw [show (encJ w ++ encElems ([] : List Jval)) ++ rest
          = encJ w ++ (encElems ([] : List Jval) ++ rest) by simp]
      rw [parseJ_complete w f (encElems ([] : List Jval) ++ rest) (by omega) hd]
      dsimp only
      rw [show encElems ([] : List Jval) ++ rest = rest by simp [encElems]]
      cases rest with
      | nil => rfl
      | cons c1 rr =>
        cases rr with
        | nil => rfl
        | cons c2 r2 =>
          have hc1 : ¬ c1 = ',' := by
            intro hcc
            exact hcomma (by simp [hcc])
          dsimp only
          rw [if_neg hc1]
  | w, w2 :: vs', fuel, rest, hf, hd, hcomma => by
    cases fuel with
    | zero => exact absurd hf (Nat.not_lt_zero _)
    | succ f =>
      simp only [parseElems]
      rw [show (encJ w ++ encElems (w2 :: vs')) ++ rest
          = encJ w ++ (encElems (w2 :: vs') ++ rest) by simp]
      rw [parseJ_complete w f (encElems (w2 :: vs') ++ rest) (by omega)
        (extOk_encElems_cons w w2 vs' rest)]
      dsimp only
      have hb : (encJ w2).length + (encElems vs').length + 1 < f := by
        have h2 : (encElems (w2 :: vs')).length
            = (encJ w2).length + (encElems vs').length + 2 := by
          simp [encElems]
        omega
      rw [show encElems (w2 :: vs') ++ rest
          = ',' :: ' ' :: ((encJ w2 ++ encElems vs') ++ rest) by
        rw [show encElems (w2 :: vs') = ',' :: ' ' :: (encJ w2 ++ encElems vs') from rfl]
        simp]
      dsimp only
      simp only [Char.reduceEq, reduceIte]
      rw [parseElems_complete w2 vs' f rest hb hd hcomma]
termination_by w vs => (encJ w).length + (encElems vs).length + 1
decreasing_by
  all_goals simp_wf
  all_goals simp only [encJ, encStr, encElems, encFields, List.length_cons, List.length_append]
  all_goals omega

theorem parseMembers_complete : ∀ (k : String) (v : Jval) (fs : List (String × Jval))
    (fuel : Nat) (rest : List Char),
    (encStr k).length + 2 + (encJ v).length + (encFields fs).length + 1 < fuel →
    extOk (lastValM v fs) rest → (rest.head? = some ',' → False) →
    parseMembers fuel ((encStr k ++ (':' :: ' ' :: encJ v) ++ encFields fs) ++ rest)
      = some ((k, v) :: fs, rest)
  | k, v, [], fuel, rest, hf, hd, hcomma => by
    cases fuel with
    | zero => exact absurd hf (Nat.not_lt_zero _)
    | succ f =>
      have hbs : k.data.length < f := by
        have h1 := escStr_len_ge k.data
        have h2 : (encStr k).length = (escStr k.data).length + 2 := by simp [encStr]
        omega
      have hbv : (encJ v).length < f := by omega
      rw [show (encStr k ++ (':' :: ' ' :: encJ v) ++ encFields ([] : List (String × Jval))) ++ rest
          = '"' :: (escStr k.data ++ ('"' :: (':' :: ' ' :: (encJ v ++ (encFields ([] : List (String × Jval)) ++ rest))))) by
        simp [encStr]]
      simp only [parseMembers]
      simp only [Char.reduceEq, reduceIte]
      rw [parseStrAux_complete k.data f
        (':' :: ' ' :: (encJ v ++ (encFields ([] : List (String × Jval)) ++ rest))) hbs]
      dsimp only
      simp only [Char.reduceEq, reduceIte]
      rw [parseJ_complete v f (encFields ([] : List (String × Jval)) ++ rest) hbv hd]
      dsimp only
      rw [show encFields ([] : List (String × Jval)) ++ rest = rest by simp [encFields]]
      cases rest with
      | nil => rfl
      | cons d1 rr =>
        cases rr with
        | nil => rfl
        | cons d2 r4 =>
          have hd1 : ¬ d1 = ',' := by
            intro hcc
            exact hcomma (by simp [hcc])
          dsimp only
          rw [if_neg hd1]
  | k, v, (k2, v2) :: fs', fuel, rest, hf, hd, hcomma => by
    cases fuel with
    | zero => exact absurd hf (Nat.not_lt_zero _)
    | succ f =>
      have hbs : k.data.length < f := by
        have h1 := escStr_len_ge k.data
        have h2 : (encStr k).length = (escStr k.data).length + 2 := by simp [encStr]
        omega
      have hbv : (encJ v).length < f := by omega
      rw [show (encStr k ++ (':' :: ' ' :: encJ v) ++ encFields ((k2, v2) :: fs')) ++ rest
          = '"' :: (escStr k.data ++ ('"' :: (':' :: ' ' :: (encJ v ++ (encFields ((k2, v2) :: fs') ++ rest))))) by
        simp [encStr]]
      simp only [parseMembers]
      simp only [Char.reduceEq, reduceIte]
      rw [parseStrAux_complete k.data f
        (':' :: ' ' :: (encJ v ++ (encFields ((k2, v2) :: fs') ++ rest))) hbs]
      dsimp only
      simp only [Char.reduceEq, reduceIte]
      rw [parseJ_complete v f (encFields ((k2, v2) :: fs') ++ rest) hbv
        (extOk_encFields_cons v k2 v2 fs' rest)]
      dsimp only
      have hb : (encStr k2).length + 2 + (encJ v2).length + (encFields fs').length + 1 < f := by
        have h2 : (encFields ((k2, v2) :: fs')).length
            = (encStr k2).length + 2 + (encJ v2).length + (encFields fs').length + 2 := by
          simp [encFields]
          omega
        omega
      rw [show encFields ((k2, v2) :: fs') ++ rest
          = ',' :: ' ' :: ((encStr k2 ++ (':' :: ' ' :: encJ v2) ++ encFields fs') ++ rest) by
        rw [show encFields ((k2, v2) :: fs')
            = ',' :: ' ' :: (encStr k2 ++ (':' :: ' ' :: encJ v2) ++ encFields fs') from rfl]
        simp]
      dsimp only
      simp only [Char.reduceEq, reduceIte]
      rw [parseMembers_complete k2 v2 fs' f rest hb hd hcomma]
termination_by k v fs => (encStr k).length + (encJ v).length + (encFields fs).length + 1
decreasing_by
  all_goals simp_wf
  all_goals simp only [encJ, encStr, encElems, encFields, List.length_cons, List.length_append]
  all_goals omega
end

theorem jsonLoads_encJ (v : Jval) : jsonLoads (encJ v) = some v := by
  unfold jsonLoads
  have h := parseJ_complete v ((encJ v).length + 1) [] (by omega) (extOk_nil v)
  rw [List.append_nil] at h
  rw [h]

theorem encJ_head_obj (u : Jval) (cs : List Char) (h : encJ u = '\x7b' :: cs) :
    ∃ fs, u = .obj fs := by
  cases u with
  | obj fs => exact ⟨fs, rfl⟩
  | null => injection h with h1 _; exact absurd h1 (by decide)
  | bool b => cases b <;> (injection h with h1 _; exact absurd h1 (by decide))
  | str s => injection h with h1 _; exact absurd h1 (by decide)
  | int n =>
    exfalso
    by_cases hn : n < 0
    · have he : encJ (.int n) = '-' :: encNat (-n).toNat := by simp [encJ, encInt, hn]
      rw [he] at h
      injection h with h1 _
      exact absurd h1 (by decide)
    · have he : encJ (.int n) = encNat n.toNat := by simp [encJ, encInt, hn]
      rw [he] at h
      have hall := encNat_all_digits n.toNat
      rw [h] at hall
      simp only [List.all_cons, Bool.and_eq_true] at hall
      have := char_digit_cases _ hall.1
      exact absurd this (by decide)
  | arr l =>
    exfalso
    cases l with
    | nil => injection h with h1 _; exact absurd h1 (by decide)
    | cons w vs =>
      have he : encJ (.arr (w :: vs)) = '[' :: ((encJ w ++ encElems vs) ++ [']']) := rfl
      rw [he] at h
      injection h with h1 _
      exact absurd h1 (by decide)

/-- A strict character-level prefix of a canonical object line never
parses as a complete JSON document: `json.loads` on such a torn line
raises, which `_recover` treats as end-of-log. -/
theorem jsonLoads_strict_cut (e : Jval) (t : List Char)
    (hobj : ∃ fs0, e = .obj fs0)
    (hpre : t <+: encJ e) (hne : t ≠ encJ e) : jsonLoads t = none := by
  cases hl : jsonLoads t with
  | none => rfl
  | some u =>
    exfalso
    unfold jsonLoads at hl
    obtain ⟨suf, hsuf⟩ := hpre
    have hsufne : suf ≠ [] := by
      intro hnil
      rw [hnil, List.append_nil] at hsuf
      exact hne hsuf
    cases hp : parseJ (t.length + 1) t with
    | none => rw [hp] at hl; simp at hl
    | some pr =>
      obtain ⟨w, r⟩ := pr
      rw [hp] at hl
      cases r with
      | cons c cr => simp at hl
      | nil =>
        have hsound := (parser_sound (t.length + 1)).1 t w [] hp
        rw [List.append_nil] at hsound
        have hwobj : ∃ fsw, w = .obj fsw := by
          obtain ⟨fs0, he0⟩ := hobj
          have hhead : ∃ cs0, encJ e = '\x7b' :: cs0 := by
            subst he0
            cases fs0 with
            | nil => exact ⟨['\x7d'], rfl⟩
            | cons p fs' =>
              obtain ⟨k0, v0⟩ := p
              exact ⟨(encStr k0 ++ (':' :: ' ' :: encJ v0) ++ encFields fs') ++ ['\x7d'], rfl⟩
          obtain ⟨cs0, hcs0⟩ := hhead
          cases ht : t with
          | nil =>
            rw [ht] at hsound
            exact absurd hsound.symm (encJ_ne_nil w)
          | cons tc tcs =>
            rw [ht, hcs0] at hsuf
            simp only [List.cons_append] at hsuf
            have htc : tc = '\x7b' := by
              injection hsuf with h1 _
            subst htc
            rw [ht] at hsound
            exact encJ_head_obj w tcs hsound.symm
        have hlen : (encJ w).length < (encJ e).length + 1 := by
          have h1 : t.length ≤ (encJ e).length := by
            rw [← hsuf]
            simp
          rw [← hsound]
          omega
        have hextOk : extOk w suf := by
          obtain ⟨fsw, hfw⟩ := hwobj
          subst hfw
          trivial
        have hcompw := parseJ_complete w ((encJ e).length + 1) suf hlen hextOk
        have hcompe := parseJ_complete e ((encJ e).length + 1) [] (by omega) (extOk_nil e)
        rw [List.append_nil] at hcompe
        rw [← hsound, hsuf] at hcompw
        rw [hcompe] at hcompw
        have hpair := some_pair_inj hcompw
        exact hsufne hpair.2.symm

/-- Python `str.strip` whitespace characters (the ones relevant here). -/
def isPySpace (c : Char) : Bool :=
  c = ' ' || c = '\t' || c = '\n' || c = '\r' || c = '\x0b' || c = '\x0c'

/-- `line.strip()`. -/
def pyStrip (s : List Char) : List Char :=
  ((s.dropWhile isPySpace).reverse.dropWhile isPySpace).reverse

/-- Split a character stream into lines at `'\n'`, as iterating a Python
text file does. A trailing piece after the last newline is kept; the
final empty piece produced by a newline-terminated file is skipped by the
replay loop's blank-line check, matching Python exactly. -/
def splitNl : List Char → List (List Char)
  | [] => [[]]
  | c :: rest =>
    if c = '\n' then [] :: splitNl rest
    else
      match splitNl rest with
      | l :: ls => (c :: l) :: ls
      | [] => [[c]]

/-- `entry.get(key)` on a `json.loads`-produced dict (duplicate keys in
the JSON text: the last wins, as in `json.loads`). -/
def jlookup (fs : List (String × Jval)) (key : String) : Option Jval :=
  dget (loadFields fs) key

/-- Applying one element of a `bulk` record's `items` during replay
(`for k, v in entry.get("items", [])`, `store.py` line 61): a two-element
array is the normal case; out-of-shape elements model Python's unpacking
and hashability errors. A two-character string unpacks into its two
characters; a two-key dict unpacks into its keys. The map models only
string keys (non-string hashable keys are invisible to string `get`s). -/
def bulkElemApply (d : Dict) (elem : Jval) : Option Dict :=
  match elem with
  | .arr [kj, vj] =>
    match kj with
    | .str ks => some (dset d ks vj)
    | .arr _ => none
    | .obj _ => none
    | _ => some d
  | .arr _ => none
  | .str s2 =>
    match s2.data with
    | [a, b] => some (dset d (String.mk [a]) (.str (String.mk [b])))
    | _ => none
  | .obj fso =>
    match (loadFields fso).map Prod.fst with
    | [a, b] => some (dset d a (.str b))
    | _ => none
  | _ => none

def bulkApply (d : Dict) : List Jval → Option Dict
  | [] => some d
  | e :: es =>
    match bulkElemApply d e with
    | some d' => bulkApply d' es
    | none => none

/-- The effect of one decoded WAL line on the in-memory map, following
`KVStore._recover` (`store.py` lines 54-62). `some d'` is the new map
(an unrecognized or missing `op` leaves it unchanged and replay
continues); `none` models an exception that `_recover` does not catch
(`AttributeError` / `TypeError` / `ValueError`), which aborts engine
construction. -/
def dispatch (fs : List (String × Jval)) (d : Dict) : Option Dict :=
  match jlookup fs "op" with
  | some (.str op) =>
    if op = "set" then
      match jlookup fs "key" with
      | some (.str k) => some (dset d k ((jlookup fs "value").getD .null))
      | some (.arr _) => none
      | some (.obj _) => none
      | _ => some d
    else if op = "delete" then
      match jlookup fs "key" with
      | some (.str k) => some (dpop d k)
      | some (.arr _) => none
      | some (.obj _) => none
      | _ => some d
    else if op = "bulk" then
      match jlookup fs "items" with
      | none => some d
      | some (.arr elems) => bulkApply d elems
      | some (.str s2) => if s2.data.isEmpty then some d else none
      | some (.obj fso) =>
        ((loadFields fso).map Prod.fst).foldl
          (fun acc ks =>
            match acc with
            | some d' =>
              (match ks.data with
               | [a, b] => some (dset d' (String.mk [a]) (.str (String.mk [b])))
               | _ => none)
            | none => none)
          (some d)
      | some _ => none
    else some d
  | some _ => some d
  | none => some d

/-- The WAL replay loop of `KVStore._recover` (`store.py` lines 46-64):
lines in order; blank lines skipped; a line that fails `json.loads`
ends replay with the state reached so far (the `except` swallows it and
all later lines are discarded); a line whose JSON value is not an object
raises (`entry.get` on a non-dict). -/
def replayLines : List (List Char) → Dict → Option Dict
  | [], d => some d
  | l :: ls, d =>
    if (pyStrip l).isEmpty then replayLines ls d
    else
      match jsonLoads (pyStrip l) with
      | none => some d
      | some (.obj fs) =>
        match dispatch fs d with
        | some d' => replayLines ls d'
        | none => none
      | some _ => none

/-- Loading the snapshot file (`store.py` lines 37-44): a missing file or
a file that fails to parse yields the empty map; a file whose JSON value
is not an object leaves `_data` as a non-dict, which makes every
subsequent replay step or access raise - modelled as construction
failure. -/
def loadSnapshot : Option (List Char) → Option Dict
  | none => some []
  | some s =>
    match jsonLoads s with
    | some (.obj fs) => some (loadFields fs)
    | some _ => none
    | none => some []

/-- `KVStore._recover` (`store.py` lines 35-64) on the string-keyed
projection of the store: load the snapshot, then replay the WAL. -/
def recoverFull (snap : Option (List Char)) (wal : List Char) : Option Dict :=
  match loadSnapshot snap with
  | some d0 => replayLines (splitNl wal) d0
  | none => none

/-- The field list of the JSON object logged for an entry. -/
def entryFields : Entry → List (String × Jval)
  | .set k v => [("op", .str "set"), ("key", .str k), ("value", v)]
  | .del k => [("op", .str "delete"), ("key", .str k)]
  | .bulk items =>
    [("op", .str "bulk"),
     ("items", .arr (items.map (fun p => .arr [.str p.1, p.2])))]

theorem entryJson_eq (e : Entry) : entryJson e = .obj (entryFields e) := by
  cases e <;> rfl

theorem dropWhile_eq_self_of_head {p : Char → Bool} :
    ∀ l : List Char, (∀ c, l.head? = some c → p c = false) → l.dropWhile p = l := by
  intro l h
  cases l with
  | nil => rfl
  | cons c cs =>
    have hc := h c rfl
    simp [List.dropWhile, hc]

theorem pyStrip_eq_self (l : List Char)
    (h1 : ∀ c, l.head? = some c → isPySpace c = false)
    (h2 : ∀ c, l.getLast? = some c → isPySpace c = false) : pyStrip l = l := by
  unfold pyStrip
  rw [dropWhile_eq_self_of_head l h1]
  rw [dropWhile_eq_self_of_head l.reverse (by
    intro c hc
    rw [List.head?_reverse] at hc
    exact h2 c hc)]
  exact List.reverse_reverse l

theorem pyStrip_isPre (l : List Char)
    (h1 : ∀ c, l.head? = some c → isPySpace c = false) : pyStrip l <+: l := by
  unfold pyStrip
  rw [dropWhile_eq_self_of_head l h1]
  have hs : l.reverse.dropWhile isPySpace <:+ l.reverse := List.dropWhile_suffix _
  have := List.reverse_prefix.mpr (by simpa using hs)
  simpa using this

theorem pyStrip_ne_nil (l : List Char) (c : Char)
    (hc : l.head? = some c) (h : isPySpace c = false) : pyStrip l ≠ [] := by
  unfold pyStrip
  intro hcontra
  have h1 : l.dropWhile isPySpace = l := dropWhile_eq_self_of_head l (by
    intro c' hc'; rw [hc] at hc'; injection hc' with hh; rw [← hh]; exact h)
  rw [h1] at hcontra
  have h2 : l.reverse.dropWhile isPySpace = [] := by
    have := congrArg List.reverse hcontra
    simpa using this
  have hmem : c ∈ l := by
    cases l with
    | nil => simp at hc
    | cons x xs => injection hc with hh; rw [hh]; exact List.mem_cons_self c xs
  have hmemrev : c ∈ l.reverse.dropWhile isPySpace ∨ c ∈ l.reverse.takeWhile isPySpace := by
    have : c ∈ l.reverse.takeWhile isPySpace ++ l.reverse.dropWhile isPySpace := by
      rw [List.takeWhile_append_dropWhile]; simpa using hmem
    rcases List.mem_append.mp this with h' | h'
    · right; exact h'
    · left; exact h'
  rcases hmemrev with h' | h'
  · rw [h2] at h'; simp at h'
  · have := List.mem_takeWhile_imp h'
    rw [h] at this; exact Bool.noConfusion this

theorem splitNl_ne_nil : ∀ s : List Char, splitNl s ≠ [] := by
  intro s
  induction s with
  | nil => simp [splitNl]
  | cons c rest ih =>
    simp only [splitNl]
    by_cases hc : c = '\n'
    · simp [hc]
    · rw [if_neg hc]
      cases hsp : splitNl rest with
      | nil => simp
      | cons l ls => simp

theorem splitNl_no_newline (l : List Char) (h : '\n' ∉ l) : splitNl l = [l] := by
  induction l with
  | nil => rfl
  | cons c rest ih =>
    have hc : c ≠ '\n' := fun hh => h (hh ▸ List.mem_cons_self c rest)
    have hrest : '\n' ∉ rest := fun hh => h (List.mem_cons_of_mem c hh)
    simp only [splitNl, if_neg hc, ih hrest]

theorem splitNl_append_line (l : List Char) (hnl : '\n' ∉ l) (rest : List Char) :
    splitNl (l ++ '\n' :: rest) = l :: splitNl rest := by
  induction l with
  | nil => simp [splitNl]
  | cons c cs ih =>
    have hc : c ≠ '\n' := fun hh => hnl (hh ▸ List.mem_cons_self c cs)
    have hcs : '\n' ∉ cs := fun hh => hnl (List.mem_cons_of_mem c hh)
    simp only [List.cons_append, splitNl, if_neg hc, List.append_eq, ih hcs]

theorem noNl_escChar (c : Char) : '\n' ∉ escChar c := by
  unfold escChar
  split_ifs with h1 h2 h3
  · decide
  · decide
  · decide
  · simp only [List.mem_singleton]
    exact fun hh => h3 hh.symm

theorem noNl_escStr (cs : List Char) : '\n' ∉ escStr cs := by
  induction cs with
  | nil => simp [escStr]
  | cons c cs ih =>
    simp only [escStr, List.mem_append]
    rintro (h | h)
    · exact noNl_escChar c h
    · exact ih h

theorem noNl_encStr (s : String) : '\n' ∉ encStr s := by
  simp only [encStr, List.mem_cons, List.mem_append, List.mem_singleton]
  rintro (h | h | h)
  · exact absurd h (by decide)
  · exact noNl_escStr _ h
  · exact absurd h (by decide)

theorem noNl_encNat (n : Nat) : '\n' ∉ encNat n := by
  intro h
  have hall := encNat_all_digits n
  rw [List.all_eq_true] at hall
  exact absurd (hall '\n' h) (by decide)

theorem noNl_encInt (n : Int) : '\n' ∉ encInt n := by
  unfold encInt
  split_ifs with h
  · rw [List.mem_cons]
    rintro (h' | h')
    · exact absurd h' (by decide)
    · exact noNl_encNat _ h'
  · exact noNl_encNat _

mutual
/-- No encoded JSON value contains a newline, so one WAL line holds one
entry. -/
theorem noNl_encJ : ∀ v : Jval, '\n' ∉ encJ v
  | .null => by decide
  | .bool true => by decide
  | .bool false => by decide
  | .int n => noNl_encInt n
  | .str s => noNl_encStr s
  | .arr [] => by decide
  | .arr (v :: vs) => by
    intro h
    rw [show encJ (.arr (v :: vs)) = '[' :: ((encJ v ++ encElems vs) ++ [']']) from rfl] at h
    rw [List.mem_cons] at h
    rcases h with h | h
    · exact absurd h (by decide)
    rw [List.mem_append] at h
    rcases h with h | h
    · rw [List.mem_append] at h
      rcases h with h | h
      · exact noNl_encJ v h
      · exact noNl_encElems vs h
    · exact absurd (List.mem_singleton.mp h) (by decide)
  | .obj [] => by decide
  | .obj ((k, v) :: fs) => by
    intro h
    rw [show encJ (.obj ((k, v) :: fs))
        = '\x7b' :: ((encStr k ++ (':' :: ' ' :: encJ v) ++ encFields fs) ++ ['\x7d']) from rfl] at h
    rw [List.mem_cons] at h
    rcases h with h | h
    · exact absurd h (by decide)
    rw [List.mem_append] at h
    rcases h with h | h
    · rw [List.mem_append] at h
      rcases h with h | h
      · rw [List.mem_append] at h
        rcases h with h | h
        · exact noNl_encStr k h
        · rw [List.mem_cons] at h
          rcases h with h | h
          · exact absurd h (by decide)
          rw [List.mem_cons] at h
          rcases h with h | h
          · exact absurd h (by decide)
          · exact noNl_encJ v h
      · exact noNl_encFields fs h
    · exact absurd (List.mem_singleton.mp h) (by decide)
termination_by v => (encJ v).length
decreasing_by
all_goals simp_wf
all_goals simp only [encJ, encElems, encFields, List.length_cons, List.length_append]
all_goals omega

theorem noNl_encElems : ∀ vs : List Jval, '\n' ∉ encElems vs
  | [] => by simp [encElems]
  | v :: vs => by
    intro h
    rw [show encElems (v :: vs) = ',' :: ' ' :: (encJ v ++ encElems vs) from rfl] at h
    rw [List.mem_cons] at h
    rcases h with h | h
    · exact absurd h (by decide)
    rw [List.mem_cons] at h
    rcases h with h | h
    · exact absurd h (by decide)
    rw [List.mem_append] at h
    rcases h with h | h
    · exact noNl_encJ v h
    · exact noNl_encElems vs h
termination_by vs => (encElems vs).length
decreasing_by
all_goals simp_wf
all_goals simp only [encJ, encElems, encFields, List.length_cons, List.length_append]
all_goals omega

theorem noNl_encFields : ∀ fs : List (String × Jval), '\n' ∉ encFields fs
  | [] => by simp [encFields]
  | (k, v) :: fs => by
    intro h
    rw [show encFields ((k, v) :: fs)
        = ',' :: ' ' :: (encStr k ++ (':' :: ' ' :: encJ v) ++ encFields fs) from rfl] at h
    rw [List.mem_cons] at h
    rcases h with h | h
    · exact absurd h (by decide)
    rw [List.mem_cons] at h
    rcases h with h | h
    · exact absurd h (by decide)
    rw [List.mem_append] at h
    rcases h with h | h
    · rw [List.mem_append] at h
      rcases h with h | h
      · exact noNl_encStr k h
      · rw [List.mem_cons] at h
        rcases h with h | h
        · exact absurd h (by decide)
        rw [List.mem_cons] at h
        rcases h with h | h
        · exact absurd h (by decide)
        · exact noNl_encJ v h
    · exact noNl_encFields fs h
termination_by fs => (encFields fs).length
decreasing_by
all_goals simp_wf
all_goals simp only [encJ, encElems, encFields, List.length_cons, List.length_append]
all_goals omega
end

theorem encodeEntry_shape (e : Entry) :
    ∃ body, encodeEntry e = '\x7b' :: (body ++ ['\x7d']) := by
  cases e <;> exact ⟨_, rfl⟩

theorem pyStrip_encodeEntry (e : Entry) : pyStrip (encodeEntry e) = encodeEntry e := by
  obtain ⟨body, hb⟩ := encodeEntry_shape e
  apply pyStrip_eq_self
  · intro c hc
    rw [hb] at hc
    simp only [List.head?_cons] at hc
    injection hc with hh
    rw [← hh]; decide
  · intro c hc
    rw [hb, show ('\x7b' :: (body ++ ['\x7d'])) = ('\x7b' :: body) ++ ['\x7d'] from rfl,
      List.getLast?_concat] at hc
    injection hc with hh
    rw [← hh]; decide

theorem encodeEntry_nonblank (e : Entry) : (pyStrip (encodeEntry e)).isEmpty = false := by
  rw [pyStrip_encodeEntry]
  obtain ⟨body, hb⟩ := encodeEntry_shape e
  rw [hb]; rfl

theorem splitNl_walFile_append (es : List Entry) (x : List Char) :
    splitNl (walFile es ++ x) = es.map encodeEntry ++ splitNl x := by
  induction es with
  | nil => simp [walFile]
  | cons e es ih =>
    rw [show walFile (e :: es) ++ x = encodeEntry e ++ ('\n' :: (walFile es ++ x)) by
      simp [walFile]]
    rw [splitNl_append_line (encodeEntry e) (noNl_encJ (entryJson e)) (walFile es ++ x), ih]
    rfl

theorem bulkApply_pairs (items : List (String × Jval)) (d : Dict) :
    bulkApply d (items.map (fun p => .arr [.str p.1, p.2]))
      = some (items.foldl (fun dd p => dset dd p.1 p.2) d) := by
  induction items generalizing d with
  | nil => rfl
  | cons p items ih =>
    simp only [List.map_cons, bulkApply, bulkElemApply, List.foldl_cons]
    exact ih (dset d p.1 p.2)

/-- Replaying one decoded WAL entry line equals the in-memory mutation:
the `_recover` branch for each `op` reproduces `applyEntry`. -/
theorem dispatch_entry (e : Entry) (d : Dict) :
    dispatch (entryFields e) d = some (applyEntry d e) := by
  cases e with
  | set k v =>
    simp [dispatch, jlookup, loadFields, dset, dget, applyEntry, entryFields]
  | del k =>
    simp [dispatch, jlookup, loadFields, dset, dget, applyEntry, entryFields]
  | bulk items =>
    exact bulkApply_pairs items d

theorem replayLines_entries_append (es : List Entry) (ls : List (List Char)) (d : Dict) :
    replayLines (es.map encodeEntry ++ ls) d = replayLines ls (applyAllE es d) := by
  induction es generalizing d with
  | nil => rfl
  | cons e es ih =>
    rw [List.map_cons, List.cons_append]
    simp only [replayLines]
    rw [encodeEntry_nonblank e]
    simp only [Bool.false_eq_true, if_false]
    rw [pyStrip_encodeEntry]
    rw [show encodeEntry e = encJ (entryJson e) from rfl, jsonLoads_encJ, entryJson_eq]
    simp only
    rw [dispatch_entry]
    simp only
    rw [ih (applyEntry d e)]
    rfl

/-- Keys of a dict, for uniqueness statements. -/
def dictKeys (d : Dict) : List String := d.map Prod.fst

theorem dictKeys_dset_subset (d : Dict) (k : String) (v : Jval) :
    ∀ k', k' ∈ dictKeys (dset d k v) → k' = k ∨ k' ∈ dictKeys d := by
  induction d with
  | nil =>
    intro k' h
    simp only [dset, dictKeys, List.map_cons, List.map_nil, List.mem_singleton] at h
    exact Or.inl h
  | cons p d ih =>
    intro k' h
    simp only [dset] at h
    by_cases hp : p.1 = k
    · rw [if_pos hp] at h
      simp only [dictKeys, List.map_cons, List.mem_cons] at h ⊢
      rcases h with h | h
      · exact Or.inl h
      · exact Or.inr (Or.inr h)
    · rw [if_neg hp] at h
      simp only [dictKeys, List.map_cons, List.mem_cons] at h ⊢
      rcases h with h | h
      · exact Or.inr (Or.inl h)
      · rcases ih k' h with h' | h'
        · exact Or.inl h'
        · exact Or.inr (Or.inr h')

theorem nodup_dset (d : Dict) (k : String) (v : Jval)
    (h : (dictKeys d).Nodup) : (dictKeys (dset d k v)).Nodup := by
  induction d with
  | nil => simp [dictKeys, dset]
  | cons p d ih =>
    simp only [dictKeys, List.map_cons, List.nodup_cons] at h
    obtain ⟨hp, hd⟩ := h
    simp only [dset]
    by_cases hpk : p.1 = k
    · rw [if_pos hpk]
      simp only [dictKeys, List.map_cons, List.nodup_cons]
      exact ⟨by rw [← hpk]; exact hp, hd⟩
    · rw [if_neg hpk]
      simp only [dictKeys, List.map_cons, List.nodup_cons]
      refine ⟨?_, ih hd⟩
      intro hmem
      rcases dictKeys_dset_subset d k v p.1 hmem with h' | h'
      · exact hpk h'
      · exact hp h'

theorem dpop_sublist (d : Dict) (k : String) : List.Sublist (dpop d k) d := by
  induction d with
  | nil => exact List.Sublist.refl _
  | cons q d ihq =>
    simp only [dpop]
    by_cases hq : q.1 = k
    · rw [if_pos hq]; exact List.Sublist.cons q ihq
    · rw [if_neg hq]; exact List.Sublist.cons₂ q ihq

theorem nodup_dpop (d : Dict) (k : String)
    (h : (dictKeys d).Nodup) : (dictKeys (dpop d k)).Nodup := by
  induction d with
  | nil => simp [dictKeys, dpop]
  | cons p d ih =>
    simp only [dictKeys, List.map_cons, List.nodup_cons] at h
    obtain ⟨hp, hd⟩ := h
    simp only [dpop]
    by_cases hpk : p.1 = k
    · rw [if_pos hpk]; exact ih hd
    · rw [if_neg hpk]
      simp only [dictKeys, List.map_cons, List.nodup_cons]
      refine ⟨?_, ih hd⟩
      intro hmem
      exact hp (((dpop_sublist d k).map Prod.fst).subset hmem)

theorem nodup_foldl_dset (items : List (String × Jval)) (d : Dict)
    (h : (dictKeys d).Nodup) :
    (dictKeys (items.foldl (fun dd p => dset dd p.1 p.2) d)).Nodup := by
  induction items generalizing d with
  | nil => exact h
  | cons p items ih => exact ih _ (nodup_dset d p.1 p.2 h)

theorem nodup_applyEntry (d : Dict) (e : Entry)
    (h : (dictKeys d).Nodup) : (dictKeys (applyEntry d e)).Nodup := by
  cases e with
  | set k v => exact nodup_dset d k v h
  | del k => exact nodup_dpop d k h
  | bulk items => exact nodup_foldl_dset items d h

theorem nodup_applyAllE (es : List Entry) (d : Dict)
    (h : (dictKeys d).Nodup) : (dictKeys (applyAllE es d)).Nodup := by
  induction es generalizing d with
  | nil => exact h
  | cons e es ih => exact ih (applyEntry d e) (nodup_applyEntry d e h)

theorem dset_append_of_not_mem (d : Dict) (k : String) (v : Jval)
    (h : k ∉ dictKeys d) : dset d k v = d ++ [(k, v)] := by
  induction d with
  | nil => rfl
  | cons p d ih =>
    simp only [dictKeys, List.map_cons, List.mem_cons] at h
    push_neg at h
    simp only [dset, if_neg (Ne.symm h.1), List.cons_append]
    rw [ih h.2]

theorem loadFields_aux (d : List (String × Jval)) (acc : Dict)
    (hdisj : ∀ p ∈ d, p.1 ∉ dictKeys acc)
    (hnodup : (d.map Prod.fst).Nodup) :
    d.foldl (fun dd p => dset dd p.1 p.2) acc = acc ++ d := by
  induction d generalizing acc with
  | nil => simp
  | cons p d ih =>
    simp only [List.map_cons, List.nodup_cons] at hnodup
    obtain ⟨hp, hd⟩ := hnodup
    simp only [List.foldl_cons]
    rw [dset_append_of_not_mem acc p.1 p.2 (hdisj p (List.mem_cons_self p d))]
    rw [ih (acc ++ [(p.1, p.2)]) (by
      intro q hq
      simp only [dictKeys, List.map_append, List.mem_append, List.map_cons,
        List.map_nil, List.mem_singleton]
      push_neg
      refine ⟨hdisj q (List.mem_cons_of_mem p hq), ?_⟩
      intro hh
      exact hp (by rw [← hh]; exact List.mem_map_of_mem Prod.fst hq)) hd]
    simp

/-- `json.loads` of a serialized key-unique dict gives back the same
association list. -/
theorem loadFields_nodup (d : List (String × Jval))
    (h : (d.map Prod.fst).Nodup) : loadFields d = d := by
  unfold loadFields
  rw [loadFields_aux d [] (by intro p _; simp [dictKeys]) h]
  simp

/-- The value that operation `o` writes to key `k` (the last pair wins
inside a `bulk_set`), `none` when `o` does not write `k`. -/
def opWrites (o : Op) (k : String) : Option Jval :=
  match o with
  | .set k' v => if k' = k then some v else none
  | .del _ => none
  | .bulk items => lastPairVal items k

/-- Whether operation `o` touches key `k` (writes or deletes it). -/
def opTouches (o : Op) (k : String) : Bool :=
  match o with
  | .set k' _ => k' = k
  | .del k' => k' = k
  | .bulk items => items.any (fun p => p.1 = k)

/-- The snapshot file content if `_save_snapshot` last succeeded after
the first `n` operations (`n = 0`: no snapshot was ever written, the file
is absent). `_save_snapshot` dumps the current in-memory map
(`store.py` line 84). -/
def snapOps (ops : List Op) (n : Nat) : Option (List Char) :=
  if n = 0 then none else some (encJ (.obj (execOps (ops.take n) [])))

/-- Snapshot content at an entry boundary `n` of the WAL entry list. -/
def snapAtE (es : List Entry) (n : Nat) : Option (List Char) :=
  if n = 0 then none else some (encJ (.obj (applyAllE (es.take n) [])))

theorem walEntries_append (A B : List Op) :
    walEntries (A ++ B) = walEntries A ++ walEntries B := by
  induction A with
  | nil => rfl
  | cons o A ih => simp [walEntries, ih]

theorem walFile_append (A B : List Entry) :
    walFile (A ++ B) = walFile A ++ walFile B := by
  induction A with
  | nil => rfl
  | cons e A ih => simp [walFile, ih]

theorem entriesEffect_untouched (es : List Entry) (k : String)
    (h : ∀ e ∈ es, entryTouches e k = false) : entriesEffect es k = none := by
  induction es with
  | nil => rfl
  | cons e es ih =>
    simp only [entriesEffect, ih (fun e' he' => h e' (List.mem_cons_of_mem e he'))]
    exact entryEffect_eq_none e k (h e (List.mem_cons_self e es))

theorem opEntries_untouched (o : Op) (k : String) (h : opTouches o k = false) :
    ∀ e ∈ opEntries o, entryTouches e k = false := by
  cases o with
  | set k' v =>
    intro e he
    simp only [opEntries, List.mem_singleton] at he
    subst he
    exact h
  | del k' =>
    intro e he
    simp only [opEntries, List.mem_singleton] at he
    subst he
    exact h
  | bulk items =>
    intro e he
    simp only [opEntries] at he
    by_cases hi : items.isEmpty
    · rw [if_pos hi] at he; exact absurd he (List.not_mem_nil e)
    · rw [if_neg hi] at he
      rw [List.mem_singleton] at he
      subst he
      exact h

theorem opEntries_effect (o : Op) (k : String) (v : Jval)
    (h : opWrites o k = some v) : entriesEffect (opEntries o) k = some (some v) := by
  cases o with
  | set k' v' =>
    simp only [opWrites] at h
    by_cases hk : k' = k
    · rw [if_pos hk] at h
      injection h with hv
      subst hv; subst hk
      simp [opEntries, entriesEffect, entryEffect]
    · rw [if_neg hk] at h; exact Option.noConfusion h
  | del k' => exact Option.noConfusion h
  | bulk items =>
    simp only [opWrites] at h
    have hne : items.isEmpty = false := by
      cases items with
      | nil => exact absurd h (by simp [lastPairVal])
      | cons p items => rfl
    simp only [opEntries, hne, Bool.false_eq_true, if_false]
    simp [entriesEffect, entryEffect, h]

theorem loadSnapshot_obj (D : Dict) (h : (dictKeys D).Nodup) :
    loadSnapshot (some (encJ (.obj D))) = some D := by
  simp only [loadSnapshot, jsonLoads_encJ]
  rw [loadFields_nodup D h]

theorem loadSnapshot_snapOps (ops : List Op) (n : Nat) :
    loadSnapshot (snapOps ops n) = some (execOps (ops.take n) []) := by
  unfold snapOps
  by_cases h : n = 0
  · rw [if_pos h]; subst h; simp [List.take_zero, execOps, loadSnapshot]
  · rw [if_neg h]
    apply loadSnapshot_obj
    rw [execOps_eq]
    exact nodup_applyAllE _ [] (by simp [dictKeys])

theorem loadSnapshot_snapAtE (es : List Entry) (n : Nat) :
    loadSnapshot (snapAtE es n) = some (applyAllE (es.take n) []) := by
  unfold snapAtE
  by_cases h : n = 0
  · rw [if_pos h]; subst h; simp [List.take_zero, applyAllE, loadSnapshot]
  · rw [if_neg h]
    exact loadSnapshot_obj _ (nodup_applyAllE _ [] (by simp [dictKeys]))

theorem recoverFull_full (E : List Entry) (d0 : Dict) (snap : Option (List Char))
    (hsnap : loadSnapshot snap = some d0) :
    recoverFull snap (walFile E) = some (applyAllE E d0) := by
  unfold recoverFull
  rw [hsnap]
  show replayLines (splitNl (walFile E)) d0 = _
  rw [show walFile E = walFile E ++ ([] : List Char) by simp, splitNl_walFile_append,
    replayLines_entries_append]
  rfl

theorem prefix_append_cases {α : Type} (A : List α) (p B : List α) (h : p <+: A ++ B) :
    p <+: A ∨ ∃ q, p = A ++ q ∧ q <+: B := by
  induction A generalizing p with
  | nil =>
    right
    exact ⟨p, rfl, by simpa using h⟩
  | cons a A ih =>
    cases p with
    | nil => left; exact List.nil_prefix
    | cons x xs =>
      rw [List.cons_append] at h
      rcases List.cons_prefix_cons.mp h with ⟨hx, hxs⟩
      rcases ih xs hxs with hL | ⟨q, hq1, hq2⟩
      · left; subst hx; exact List.cons_prefix_cons.mpr ⟨rfl, hL⟩
      · right; subst hx; exact ⟨q, by rw [List.cons_append, hq1], hq2⟩

/-- Any byte prefix of a WAL file is some number of whole lines followed
by a (possibly empty, possibly complete-but-unterminated) prefix of the
next line. -/
theorem walFile_prefix_decomp (es : List Entry) (p : List Char) (hp : p <+: walFile es) :
    ∃ j t, p = walFile (es.take j) ++ t ∧
      ((t = [] ∧ j = es.length) ∨ ∃ e, es[j]? = some e ∧ t <+: encodeEntry e) := by
  induction es generalizing p with
  | nil =>
    have hnil : p = [] := List.prefix_nil.mp hp
    exact ⟨0, [], by simp [hnil, walFile], Or.inl ⟨rfl, rfl⟩⟩
  | cons e es ih =>
    have hp' : p <+: encodeEntry e ++ ('\n' :: walFile es) := by simpa [walFile] using hp
    rcases prefix_append_cases (encodeEntry e) p ('\n' :: walFile es) hp' with hL | ⟨q, hq1, hq2⟩
    · exact ⟨0, p, by simp [walFile], Or.inr ⟨e, by simp, hL⟩⟩
    · cases q with
      | nil =>
        refine ⟨0, p, by simp [walFile], Or.inr ⟨e, by simp, ?_⟩⟩
        rw [hq1]
        simp
      | cons c q' =>
        rcases List.cons_prefix_cons.mp hq2 with ⟨hc, hq'⟩
        obtain ⟨j', t, hdec, hcase⟩ := ih q' hq'
        refine ⟨j' + 1, t, ?_, ?_⟩
        · rw [hq1, hc, hdec]
          simp [walFile]
        · rcases hcase with ⟨ht, hj⟩ | ⟨e', he', hte⟩
          · exact Or.inl ⟨ht, by simp [hj]⟩
          · exact Or.inr ⟨e', by simpa using he', hte⟩

/-- Replaying a (possibly torn) single line that is a byte prefix of an
entry's line: a complete line applies the entry; a strict prefix fails
`json.loads` and replay stops with the map unchanged. -/
theorem replayLines_torn (e : Entry) (t : List Char) (ht : t <+: encodeEntry e) (d : Dict) :
    (replayLines (splitNl t) d = some d ∧ t ≠ encodeEntry e) ∨
    (replayLines (splitNl t) d = some (applyEntry d e) ∧ t = encodeEntry e) := by
  have hnl : '\n' ∉ t := fun hmem => noNl_encJ (entryJson e) (ht.subset hmem)
  rw [splitNl_no_newline t hnl]
  by_cases hT : t = encodeEntry e
  · right
    refine ⟨?_, hT⟩
    rw [hT]
    simp only [replayLines]
    rw [encodeEntry_nonblank e]
    simp only [Bool.false_eq_true, if_false]
    rw [pyStrip_encodeEntry]
    rw [show encodeEntry e = encJ (entryJson e) from rfl, jsonLoads_encJ, entryJson_eq]
    simp only
    rw [dispatch_entry]
  · left
    refine ⟨?_, hT⟩
    simp only [replayLines]
    by_cases hb : (pyStrip t).isEmpty = true
    · rw [if_pos hb]
    · rw [if_neg hb]
      have htne : t ≠ [] := by
        intro hh
        subst hh
        exact hb rfl
      have hhead : ∀ c, t.head? = some c → isPySpace c = false := by
        intro c hc
        obtain ⟨body, hbody⟩ := encodeEntry_shape e
        obtain ⟨suf, hsuf⟩ := ht
        cases t with
        | nil => exact absurd rfl htne
        | cons x xs =>
          rw [List.cons_append, hbody] at hsuf
          injection hsuf with h1 _
          simp only [List.head?_cons] at hc
          injection hc with h2
          rw [← h2, h1]
          decide
      have hpre' : pyStrip t <+: encodeEntry e := (pyStrip_isPre t hhead).trans ht
      have hlen : t.length < (encodeEntry e).length := by
        rcases Nat.lt_or_ge t.length (encodeEntry e).length with h' | h'
        · exact h'
        · exact absurd (List.IsPrefix.eq_of_length ht (Nat.le_antisymm (ht.length_le) h')) hT
      have hne' : pyStrip t ≠ encodeEntry e := by
        intro hh
        have := (pyStrip_isPre t hhead).length_le
        rw [hh] at this
        omega
      rw [jsonLoads_strict_cut (entryJson e) (pyStrip t) ⟨entryFields e, entryJson_eq e⟩
        hpre' hne']

theorem take_prefix_take {α : Type} (l : List α) (m j : Nat) (h : m ≤ j) :
    l.take m <+: l.take j := by
  have : l.take m = (l.take j).take m := by
    rw [List.take_take, Nat.min_eq_left h]
  rw [this]
  exact List.take_prefix m (l.take j)

theorem walFile_mono (A B : List Entry) (h : A <+: B) : walFile A <+: walFile B := by
  obtain ⟨C, hC⟩ := h
  rw [← hC, walFile_append]
  exact ⟨walFile C, rfl⟩

theorem wal_take_bound (es : List Entry) (p : List Char) (m n : Nat)
    (hm : walFile (es.take m) <+: p)
    (hlt : p.length < (walFile (es.take n)).length) : m < n := by
  by_contra hge
  push_neg at hge
  have h1 := walFile_mono _ _ (take_prefix_take es n m hge)
  have h2 := h1.length_le
  have h3 := hm.length_le
  omega

/-- Replaying any byte prefix of a WAL file succeeds and yields the state
of an entry-aligned prefix of the log (no entry is ever applied
partially); moreover that prefix extends every boundary whose lines are
fully contained in the cut. -/
theorem replay_of_prefix (es : List Entry) (p : List Char) (hp : p <+: walFile es) (d0 : Dict) :
    ∃ j, j ≤ es.length ∧
      replayLines (splitNl p) d0 = some (applyAllE (es.take j) d0) ∧
      (∀ m, walFile (es.take m) <+: p → es.take m <+: es.take j) := by
  obtain ⟨j', t, hdec, hcase⟩ := walFile_prefix_decomp es p hp
  rcases hcase with ⟨ht, hj⟩ | ⟨e, he, hte⟩
  · subst ht
    refine ⟨j', le_of_eq hj, ?_, ?_⟩
    · rw [hdec, splitNl_walFile_append, replayLines_entries_append]
      rfl
    · intro m _
      rw [hj, List.take_length]
      exact List.take_prefix m es
  · have hjlt : j' < es.length := by
      by_contra hge
      rw [List.getElem?_eq_none (by omega)] at he
      exact Option.noConfusion he
    have hsplit : splitNl p = (es.take j').map encodeEntry ++ splitNl t := by
      rw [hdec, splitNl_walFile_append]
    have htake : es.take (j' + 1) = es.take j' ++ [e] := by
      rw [List.take_succ, he]
      rfl
    have hlenwal : (walFile (es.take (j' + 1))).length
        = (walFile (es.take j')).length + (encodeEntry e).length + 1 := by
      rw [htake, walFile_append]
      simp [walFile]
      omega
    rcases replayLines_torn e t hte (applyAllE (es.take j') d0) with ⟨hrep, hne⟩ | ⟨hrep, heq⟩
    · refine ⟨j', le_of_lt hjlt, ?_, ?_⟩
      · rw [hsplit, replayLines_entries_append, hrep]
      · intro m hm
        have htlt : t.length < (encodeEntry e).length := by
          rcases Nat.lt_or_ge t.length (encodeEntry e).length with h' | h'
          · exact h'
          · exact absurd (List.IsPrefix.eq_of_length hte
              (Nat.le_antisymm hte.length_le h')) hne
        have hplt : p.length < (walFile (es.take (j' + 1))).length := by
          rw [hdec, List.length_append, hlenwal]
          omega
        have := wal_take_bound es p m (j' + 1) hm hplt
        exact take_prefix_take es m j' (by omega)
    · refine ⟨j' + 1, by omega, ?_, ?_⟩
      · rw [hsplit, replayLines_entries_append, hrep, htake, applyAllE_append]
        rfl
      · intro m hm
        have hplt : p.length < (walFile (es.take (j' + 1))).length := by
          rw [hdec, List.length_append, hlenwal, heq]
          omega
        have := wal_take_bound es p m (j' + 1) hm hplt
        exact take_prefix_take es m (j' + 1) (by omega)

theorem walEntries_mem (ops : List Op) (e : Entry) (h : e ∈ walEntries ops) :
    ∃ o ∈ ops, e ∈ opEntries o := by
  induction ops with
  | nil => exact absurd h (List.not_mem_nil e)
  | cons o ops ih =>
    simp only [walEntries, List.mem_append] at h
    rcases h with h | h
    · exact ⟨o, List.mem_cons_self o ops, h⟩
    · obtain ⟨o', ho', he'⟩ := ih h
      exact ⟨o', List.mem_cons_of_mem o ho', he'⟩

/-- C1: durability of an acknowledged write. If an operation that wrote
`(k, v)` succeeded (a `set`, or a `bulk_set` whose last pair for `k` is
`(k, v)`) and no later operation touches `k`, then recovery from the WAL
produced by the full operation sequence - together with the snapshot
state after the first `n` operations, for any `n`, including `n = 0`
meaning every snapshot write was skipped - succeeds and yields
`get(k) = v`. -/
theorem spec_C1 (pre post : List Op) (o : Op) (k : String) (v : Jval) (n : Nat)
    (hw : opWrites o k = some v)
    (hpost : ∀ o' ∈ post, opTouches o' k = false) :
    ∃ d, recoverFull (snapOps (pre ++ o :: post) n)
          (walFile (walEntries (pre ++ o :: post))) = some d
        ∧ dget d k = some v := by
  refine ⟨applyAllE (walEntries (pre ++ o :: post))
    (execOps ((pre ++ o :: post).take n) []), ?_, ?_⟩
  · exact recoverFull_full _ _ _ (loadSnapshot_snapOps (pre ++ o :: post) n)
  · rw [applyAllE_dget]
    have hu : ∀ e ∈ walEntries post, entryTouches e k = false := by
      intro e he
      obtain ⟨o', ho', he'⟩ := walEntries_mem post e he
      exact opEntries_untouched o' k (hpost o' ho') e he'
    have hsplit : walEntries (pre ++ o :: post)
        = walEntries pre ++ (opEntries o ++ walEntries post) := by
      rw [walEntries_append]
      rfl
    have heff : entriesEffect (walEntries (pre ++ o :: post)) k = some (some v) := by
      rw [hsplit, entriesEffect_append, entriesEffect_append,
        entriesEffect_untouched (walEntries post) k hu, opEntries_effect o k v hw]
    rw [heff]
    rfl

theorem spec_C1_witness :
    ∃ d, recoverFull (snapOps ([] ++ Op.set "a" (Jval.str "x") :: []) 0)
          (walFile (walEntries ([] ++ Op.set "a" (Jval.str "x") :: []))) = some d
        ∧ dget d "a" = some (Jval.str "x") :=
  spec_C1 [] [] (Op.set "a" (Jval.str "x")) "a" (Jval.str "x") 0 (by rfl)
    (by intro o' h; exact absurd h (List.not_mem_nil o'))

/-- C2: crash-cut recovery is entry-atomic. For every byte prefix `p` of
the WAL file (any crash point, including a torn final line) and every
snapshot boundary `m` whose WAL lines are fully contained in `p`,
recovery succeeds and the recovered map is pointwise equal to replaying
some entry-aligned prefix of the log onto an empty map. In particular a
`bulk` record is applied either in full or not at all (no strict subset
of its pairs), since the recovered state is the state after a whole
number of entries. -/
theorem spec_C2 (es : List Entry) (m : Nat) (p : List Char)
    (hp : p <+: walFile es)
    (hm : walFile (es.take m) <+: p) :
    ∃ j d, j ≤ es.length ∧
      recoverFull (snapAtE es m) p = some d ∧
      ∀ k, dget d k = dget (applyAllE (es.take j) []) k := by
  obtain ⟨j, hj, hrep, hmono⟩ := replay_of_prefix es p hp (applyAllE (es.take m) [])
  refine ⟨j, applyAllE (es.take j) (applyAllE (es.take m) []), hj, ?_, ?_⟩
  · unfold recoverFull
    rw [loadSnapshot_snapAtE]
    exact hrep
  · intro k
    rw [applyAllE_dget]
    conv_rhs => rw [applyAllE_dget]
    obtain ⟨mid, hmid⟩ := hmono m hm
    cases heff : entriesEffect (es.take j) k with
    | some r => rfl
    | none =>
      have heff2 := heff
      rw [← hmid, entriesEffect_append] at heff2
      have h1 : entriesEffect (es.take m) k = none := by
        cases h2 : entriesEffect mid k with
        | some r => rw [h2] at heff2; exact Option.noConfusion heff2
        | none => rw [h2] at heff2; exact heff2
      simp only [Option.getD_none]
      rw [applyAllE_dget, h1]
      rfl

theorem spec_C2_witness :
    ∃ j d, j ≤ [Entry.set "a" (Jval.str "x")].length ∧
      recoverFull (snapAtE [Entry.set "a" (Jval.str "x")] 0) [] = some d ∧
      ∀ k, dget d k = dget (applyAllE ([Entry.set "a" (Jval.str "x")].take j) []) k :=
  spec_C2 [Entry.set "a" (Jval.str "x")] 0 [] ⟨_, rfl⟩ (by simp [walFile])

/-- C3: snapshot-over-replay idempotence. For every operation sequence
and snapshot point `n`, loading the snapshot succeeds, and replaying the
whole WAL entry list onto the snapshot map gives, pointwise, the same
map as replaying it onto the empty map: the snapshot is the state of a
WAL prefix, and any key it mentions is rewritten (or re-deleted) when
that prefix is replayed again. -/
theorem spec_C3 (ops : List Op) (n : Nat) (hn : n ≤ ops.length) :
    ∃ snapMap, loadSnapshot (snapOps ops n) = some snapMap ∧
      ∀ k, dget (applyAllE (walEntries ops) snapMap) k
         = dget (applyAllE (walEntries ops) []) k := by
  refine ⟨execOps (ops.take n) [], loadSnapshot_snapOps ops n, ?_⟩
  intro k
  rw [applyAllE_dget, applyAllE_dget]
  cases heff : entriesEffect (walEntries ops) k with
  | some r => rfl
  | none =>
    have heff2 := heff
    rw [show ops = ops.take n ++ ops.drop n from (List.take_append_drop n ops).symm,
      walEntries_append, entriesEffect_append] at heff2
    have h1 : entriesEffect (walEntries (ops.take n)) k = none := by
      cases h2 : entriesEffect (walEntries (ops.drop n)) k with
      | some r => rw [h2] at heff2; exact Option.noConfusion heff2
      | none => rw [h2] at heff2; exact heff2
    simp only [Option.getD_none]
    rw [execOps_eq, applyAllE_dget, h1]
    rfl

theorem spec_C3_witness :
    ∃ snapMap, loadSnapshot (snapOps [Op.set "a" (Jval.str "x")] 1) = some snapMap ∧
      ∀ k, dget (applyAllE (walEntries [Op.set "a" (Jval.str "x")]) snapMap) k
         = dget (applyAllE (walEntries [Op.set "a" (Jval.str "x")]) []) k :=
  spec_C3 [Op.set "a" (Jval.str "x")] 1 (by decide)

/-- Whether a decoded Python value is `None` (JSON `null` decodes to
`None`). -/
def isNull : Jval → Bool
  | .null => true
  | _ => false

/-- `protocol.encode_response` (`protocol.py` lines 18-25) as the field
list of the JSON object it writes: `{"ok": ok}`, then `value` only when
the Python value is not `None`, then `error` only when present. -/
def encResp (ok : Bool) (value : Jval) (error : Option String) : List (String × Jval) :=
  [("ok", .bool ok)]
    ++ (if isNull value then [] else [("value", value)])
    ++ (match error with
        | some e => [("error", .str e)]
        | none => [])

/-- The wire response of `server.handle_client` to `get` with key `k`
(`server.py` lines 32-38): `store.get` is `self._data.get(key)`
(`store.py` line 91), which yields `None` both for an absent key and for
a key stored as JSON `null`; the result is passed to `encode_response`. -/
def getResponse (d : Dict) (k : String) : List (String × Jval) :=
  encResp true ((dget d k).getD .null) none

/-- C5 (counterexample): a key stored with JSON `null` produces a `get`
response with no `value` field - byte-identical to the response for an
absent key - because `store.get` returns Python `None` for both and
`encode_response` omits `value` whenever the value is `None`. The
claimed `value: null` member is never emitted. -/
theorem spec_C5_counterexample :
    getResponse [("k", Jval.null)] "k" = getResponse [] "k" ∧
    dget (getResponse [("k", Jval.null)] "k") "value" = none := ⟨rfl, rfl⟩

/-- C5 (amended): the `get` response carries a `value` field exactly when
the key is present with a non-`null` stored value; an absent key and a
key stored as JSON `null` both produce a response without `value` (so
the wire protocol does not distinguish them). -/
theorem spec_C5 (d : Dict) (k : String) :
    dget (getResponse d k) "value"
      = match dget d k with
        | none => none
        | some v => if isNull v then none else some v := by
  cases h : dget d k with
  | none => simp only [getResponse, encResp, h]; rfl
  | some v => cases v <;> simp only [getResponse, encResp, h] <;> rfl

/-- One reachable peer's `role` reply during an election round: its
`primary` flag and its `node_id` (unreachable peers never contribute - a
failed connect is swallowed). -/
abbrev PeerReply := Bool × Nat

/-- `cluster_node.py` `election_loop` (lines 247-266): the round is
abandoned (`other_primary`) iff some reachable peer replies
`primary=true` with `node_id` smaller than ours. -/
def electionAbandonsLoop (myId : Nat) (peers : List PeerReply) : Bool :=
  peers.any (fun r => r.1 && decide (r.2 < myId))

/-- `replication.py` `ClusterNode._run_election` (lines 185-202): the
round is abandoned (early `return`) iff some reachable peer replies
`primary=true` (any id), or has a smaller `node_id` (even if it is not
primary). -/
def runElectionAbandons (myId : Nat) (peers : List PeerReply) : Bool :=
  peers.any (fun r => r.1 || decide (r.2 < myId))

/-- C6 (counterexample): node 1 sees a single reachable peer that is
primary with the larger id 2. `cluster_node.py`'s `election_loop`
promotes (as the claim states), but `replication.py`'s `_run_election` -
also cited by the claim - abandons the round: it returns on any primary
peer regardless of id, so the claimed "if and only if" fails for it. -/
theorem spec_C6_counterexample :
    electionAbandonsLoop 1 [(true, 2)] = false ∧
    runElectionAbandons 1 [(true, 2)] = true := by decide

/-- C6 (amended): the two election implementations differ.
`election_loop` (`cluster_node.py`) abandons iff some reachable peer is
primary with a strictly smaller id, exactly as the spec states;
`_run_election` (`replication.py`) abandons iff some reachable peer is
primary (any id) or has a strictly smaller id (even when that peer is secondary). -/
theorem spec_C6 (myId : Nat) (peers : List PeerReply) :
    (electionAbandonsLoop myId peers = true ↔ ∃ r ∈ peers, r.1 = true ∧ r.2 < myId) ∧
    (runElectionAbandons myId peers = true ↔ ∃ r ∈ peers, r.1 = true ∨ r.2 < myId) := by
  constructor
  · rw [electionAbandonsLoop, List.any_eq_true]
    constructor
    · rintro ⟨r, hr, hcond⟩
      rw [Bool.and_eq_true, decide_eq_true_eq] at hcond
      exact ⟨r, hr, hcond⟩
    · rintro ⟨r, hr, h1, h2⟩
      exact ⟨r, hr, by rw [Bool.and_eq_true, decide_eq_true_eq]; exact ⟨h1, h2⟩⟩
  · rw [runElectionAbandons, List.any_eq_true]
    constructor
    · rintro ⟨r, hr, hcond⟩
      rw [Bool.or_eq_true, decide_eq_true_eq] at hcond
      exact ⟨r, hr, hcond⟩
    · rintro ⟨r, hr, h⟩
      exact ⟨r, hr, by rw [Bool.or_eq_true, decide_eq_true_eq]; exact h⟩

/-- One scheduler step of a cluster node's lifetime, restricted to its
effect on the `is_primary` flag. The only assignments to the flag in the
whole codebase after construction are `is_primary = True`
(`cluster_node.py` line 274) and `self._is_primary = True`
(`replication.py` line 213), both guarded by "already primary?" checks;
request handling and replication apply never write it. -/
inductive NodeStep where
  | electionRound (abandon : Bool) : NodeStep
  | handleRequest : NodeStep
  | applyReplicated : NodeStep

/-- Effect of one step on the `is_primary` flag: an election round on a
node that is already primary is a no-op (`if is_primary: continue`); one
that abandons keeps the flag; one that completes promotion sets it to
`true`. No step ever assigns `false`. -/
def stepPrimary (isP : Bool) (s : NodeStep) : Bool :=
  match s with
  | .electionRound abandon => if isP then isP else if abandon then isP else true
  | .handleRequest => isP
  | .applyReplicated => isP

/-- C7: `is_primary` is monotone over a process lifetime - once `true`
it stays `true` through every reachable sequence of election rounds,
request handling, and replication steps, because every assignment to the
flag writes `true`. -/
theorem spec_C7 (steps : List NodeStep) (isP : Bool) (h : isP = true) :
    steps.foldl stepPrimary isP = true := by
  induction steps generalizing isP with
  | nil => exact h
  | cons s steps ih =>
    rw [List.foldl_cons]
    apply ih
    subst h
    cases s with
    | electionRound abandon => rfl
    | handleRequest => rfl
    | applyReplicated => rfl

theorem spec_C7_witness :
    [NodeStep.electionRound true, NodeStep.handleRequest,
     NodeStep.applyReplicated].foldl stepPrimary true = true :=
  spec_C7 [NodeStep.electionRound true, NodeStep.handleRequest,
    NodeStep.applyReplicated] true rfl

/-- `\w` of `re` on ASCII: letters, digits, underscore. -/
def isWordChar (c : Char) : Bool := c.isAlphanum || c = '_'

/-- Maximal word-character runs of a character list
(`re.findall(r"\b\w+\b", text)`), fuel-driven so it evaluates in the
kernel; `tokenize` supplies sufficient fuel. -/
def tokenizeAux : Nat → List Char → List (List Char)
  | 0, _ => []
  | _ + 1, [] => []
  | fuel + 1, c :: cs =>
    if isWordChar c then
      (c :: cs.takeWhile isWordChar) :: tokenizeAux fuel (cs.dropWhile isWordChar)
    else
      tokenizeAux fuel cs

/-- `indexes._tokenize` (`indexes.py` lines 15-18): lowercase, then the
word-character runs. -/
def tokenize (s : List Char) : List (List Char) :=
  tokenizeAux (s.length + 1) (s.map Char.toLower)

/-- Simplified Python `repr` escaping for characters inside a
single-quoted string literal (backslash, quote, newline; other
characters verbatim). -/
def reprEscChar (c : Char) : List Char :=
  if c = '\\' then ['\\', '\\']
  else if c = '\'' then ['\\', '\'']
  else if c = '\n' then ['\\', 'n']
  else [c]

def reprEsc : List Char → List Char
  | [] => []
  | c :: cs => reprEscChar c ++ reprEsc cs

mutual
/-- Python `repr` of a decoded JSON value (`None`/`True`/`False`,
decimal ints, single-quoted strings, `[...]` lists with `", "`,
`{...}` dicts with `": "` and `", "`). -/
def pyRepr : Jval → List Char
  | .null => "None".data
  | .bool true => "True".data
  | .bool false => "False".data
  | .int n => encInt n
  | .str s => '\'' :: (reprEsc s.data ++ ['\''])
  | .arr [] => "[]".data
  | .arr (v :: vs) => '[' :: ((pyRepr v ++ pyReprElems vs) ++ [']'])
  | .obj [] => ['\x7b', '\x7d']
  | .obj ((k, v) :: fs) =>
    '\x7b' :: ((('\'' :: (reprEsc k.data ++ ['\''])) ++ (':' :: ' ' :: pyRepr v)
      ++ pyReprFields fs) ++ ['\x7d'])

def pyReprElems : List Jval → List Char
  | [] => []
  | v :: vs => ',' :: ' ' :: (pyRepr v ++ pyReprElems vs)

def pyReprFields : List (String × Jval) → List Char
  | [] => []
  | (k, v) :: fs =>
    ',' :: ' ' :: (('\'' :: (reprEsc k.data ++ ['\''])) ++ (':' :: ' ' :: pyRepr v)
      ++ pyReprFields fs)
end

/-- Python `str(value)`: a string is itself; anything else is its
`repr`. -/
def pyStr (v : Jval) : List Char :=
  match v with
  | .str s => s.data
  | v => pyRepr v

/-- The token multiset a stored value is indexed under:
`_tokenize(str(value))` (`indexes.py` line 34). -/
def tokensOf (v : Jval) : List String :=
  (tokenize (pyStr v)).map (fun t => String.mk t)

/-- `FullTextIndex._word_to_keys`: insertion-ordered dict from word to
the set of keys whose value contains it (Python sets are unordered, so
postings are `Finset`s). -/
abbrev FtIdx := List (String × Finset String)

/-- `self._word_to_keys.get(w, set())`. -/
def idxGet (idx : FtIdx) (w : String) : Finset String :=
  match idx with
  | [] => ∅
  | p :: idx => if p.1 = w then p.2 else idxGet idx w

/-- `for keys in self._word_to_keys.values(): keys.discard(key)`. -/
def idxDiscard (idx : FtIdx) (key : String) : FtIdx :=
  idx.map (fun p => (p.1, p.2.erase key))

/-- `self._word_to_keys.setdefault(w, set()).add(key)`. -/
def idxAdd : FtIdx → String → String → FtIdx
  | [], w, k => [(w, {k})]
  | p :: idx, w, k => if p.1 = w then (p.1, insert k p.2) :: idx else p :: idxAdd idx w k

/-- `FullTextIndex.index_value` (`indexes.py` lines 28-36): discard the
key's old postings, then add it under each token of `str(value)`. -/
def indexValue (idx : FtIdx) (key : String) (v : Jval) : FtIdx :=
  (tokensOf v).foldl (fun i w => idxAdd i w key) (idxDiscard idx key)

/-- `FullTextIndex.remove_key` (`indexes.py` lines 38-43): discard the
key everywhere, then drop words with empty posting sets. -/
def removeKey (idx : FtIdx) (key : String) : FtIdx :=
  (idxDiscard idx key).filter (fun p => decide (p.2 ≠ ∅))

/-- `FullTextIndex.search` (`indexes.py` lines 45-57): tokenize the
query; no tokens means an empty result; otherwise intersect the posting
sets of all tokens (AND semantics). The Python `list(result)` order is
unspecified, so the result is modelled as the set itself. -/
def searchFT (idx : FtIdx) (q : String) : Finset String :=
  match (tokenize q.data).map (fun t => String.mk t) with
  | [] => ∅
  | w :: ws => ws.foldl (fun acc w' => acc ∩ idxGet idx w') (idxGet idx w)

/-- In-memory state of a store with indexes enabled: the map and the
full-text index. -/
structure IdxSt where
  data : Dict
  idx : FtIdx

/-- The in-memory effect of one operation on map and index
(`store.py` lines 101-106, 117-122, 135-141): `set` and each `bulk_set`
pair write the map and re-index the key; `delete` pops the map and
removes the key from the index. -/
def idxApplyOp (st : IdxSt) (o : Op) : IdxSt :=
  match o with
  | .set k v => ⟨dset st.data k v, indexValue st.idx k v⟩
  | .del k => ⟨dpop st.data k, removeKey st.idx k⟩
  | .bulk items =>
    items.foldl (fun s p => ⟨dset s.data p.1 p.2, indexValue s.idx p.1 p.2⟩) st

/-- The store state after a sequence of operations from a fresh, empty
store with indexes enabled. -/
def idxExec (ops : List Op) : IdxSt := ops.foldl idxApplyOp ⟨[], []⟩

theorem idxGet_absent (idx : FtIdx) (w : String) (h : w ∉ idx.map Prod.fst) :
    idxGet idx w = ∅ := by
  induction idx with
  | nil => rfl
  | cons p idx ih =>
    simp only [List.map_cons, List.mem_cons] at h
    push_neg at h
    simp only [idxGet, if_neg (Ne.symm h.1)]
    exact ih h.2

theorem idxGet_idxDiscard (idx : FtIdx) (key w : String) :
    idxGet (idxDiscard idx key) w = (idxGet idx w).erase key := by
  induction idx with
  | nil => simp [idxDiscard, idxGet]
  | cons p idx ih =>
    simp only [idxDiscard, List.map_cons, idxGet]
    by_cases h : p.1 = w
    · rw [if_pos h, if_pos h]
    · rw [if_neg h, if_neg h]
      exact ih

theorem idxGet_idxAdd (idx : FtIdx) (w k w' : String) :
    idxGet (idxAdd idx w k) w'
      = if w' = w then insert k (idxGet idx w) else idxGet idx w' := by
  induction idx with
  | nil =>
    simp only [idxAdd, idxGet]
    by_cases h : w' = w
    · subst h; simp
    · rw [if_neg (Ne.symm h), if_neg h]
  | cons p idx ih =>
    simp only [idxAdd]
    by_cases h1 : p.1 = w
    · rw [if_pos h1]
      simp only [idxGet]
      by_cases h2 : w' = w
      · subst h2
        rw [if_pos h1, if_pos rfl, if_pos h1]
      · rw [if_neg (fun hh => h2 (hh.symm.trans h1)), if_neg h2,
          if_neg (fun hh => h2 (hh.symm.trans h1))]
    · rw [if_neg h1]
      simp only [idxGet]
      by_cases h2 : p.1 = w'
      · rw [if_pos h2]
        have hne : ¬ w' = w := fun hh => h1 (h2.trans hh)
        rw [if_neg hne, if_pos h2]
      · rw [if_neg h2, ih]
        by_cases h3 : w' = w
        · rw [if_pos h3, if_pos h3, if_neg h1]
        · rw [if_neg h3, if_neg h3, if_neg h2]

theorem idxKeys_idxDiscard (idx : FtIdx) (key : String) :
    (idxDiscard idx key).map Prod.fst = idx.map Prod.fst := by
  induction idx with
  | nil => rfl
  | cons p idx ih => simp only [idxDiscard, List.map_cons] at ih ⊢; rw [ih]

theorem idxKeys_idxAdd_subset (idx : FtIdx) (w k : String) :
    ∀ w', w' ∈ (idxAdd idx w k).map Prod.fst → w' = w ∨ w' ∈ idx.map Prod.fst := by
  induction idx with
  | nil =>
    intro w' h
    simp only [idxAdd, List.map_cons, List.map_nil, List.mem_singleton] at h
    exact Or.inl h
  | cons p idx ih =>
    intro w' h
    simp only [idxAdd] at h
    by_cases h1 : p.1 = w
    · rw [if_pos h1] at h
      simp only [List.map_cons, List.mem_cons] at h ⊢
      rcases h with h | h
      · exact Or.inr (Or.inl h)
      · exact Or.inr (Or.inr h)
    · rw [if_neg h1] at h
      simp only [List.map_cons, List.mem_cons] at h ⊢
      rcases h with h | h
      · exact Or.inr (Or.inl h)
      · rcases ih w' h with h' | h'
        · exact Or.inl h'
        · exact Or.inr (Or.inr h')

theorem nodup_idxAdd (idx : FtIdx) (w k : String)
    (h : (idx.map Prod.fst).Nodup) : ((idxAdd idx w k).map Prod.fst).Nodup := by
  induction idx with
  | nil => simp [idxAdd]
  | cons p idx ih =>
    simp only [List.map_cons, List.nodup_cons] at h
    obtain ⟨hp, hd⟩ := h
    simp only [idxAdd]
    by_cases h1 : p.1 = w
    · rw [if_pos h1]
      simp only [List.map_cons, List.nodup_cons]
      exact ⟨hp, hd⟩
    · rw [if_neg h1]
      simp only [List.map_cons, List.nodup_cons]
      refine ⟨?_, ih hd⟩
      intro hmem
      rcases idxKeys_idxAdd_subset idx w k p.1 hmem with h' | h'
      · exact h1 h'
      · exact hp h'

theorem nodup_indexValue (idx : FtIdx) (key : String) (v : Jval)
    (h : (idx.map Prod.fst).Nodup) : ((indexValue idx key v).map Prod.fst).Nodup := by
  unfold indexValue
  have hbase : ((idxDiscard idx key).map Prod.fst).Nodup := by
    rw [idxKeys_idxDiscard]; exact h
  generalize idxDiscard idx key = i0 at hbase ⊢
  induction tokensOf v generalizing i0 with
  | nil => exact hbase
  | cons w ws ih => exact ih _ (nodup_idxAdd i0 w key hbase)

theorem nodup_removeKey (idx : FtIdx) (key : String)
    (h : (idx.map Prod.fst).Nodup) : ((removeKey idx key).map Prod.fst).Nodup := by
  unfold removeKey
  have h1 : ((idxDiscard idx key).map Prod.fst).Nodup := by
    rw [idxKeys_idxDiscard]; exact h
  exact h1.sublist (List.Sublist.map Prod.fst (List.filter_sublist _))

theorem idxGet_removeKey (idx : FtIdx) (key w : String)
    (h : (idx.map Prod.fst).Nodup) :
    idxGet (removeKey idx key) w = (idxGet idx w).erase key := by
  rw [← idxGet_idxDiscard]
  unfold removeKey
  have h1 : ((idxDiscard idx key).map Prod.fst).Nodup := by
    rw [idxKeys_idxDiscard]; exact h
  generalize idxDiscard idx key = i0 at h1 ⊢
  induction i0 with
  | nil => rfl
  | cons p i0 ih =>
    simp only [List.map_cons, List.nodup_cons] at h1
    obtain ⟨hp, hd⟩ := h1
    rw [List.filter_cons]
    by_cases hemp : p.2 = ∅
    · have : decide (p.2 ≠ ∅) = false := by simp [hemp]
      rw [this]
      simp only [Bool.false_eq_true, if_false]
      rw [ih hd]
      simp only [idxGet]
      by_cases hw : p.1 = w
      · rw [if_pos hw, hemp]
        rw [← hw] at *
        exact idxGet_absent i0 p.1 hp
      · rw [if_neg hw]
    · have : decide (p.2 ≠ ∅) = true := by simp [hemp]
      rw [this]
      simp only [if_true]
      simp only [idxGet]
      by_cases hw : p.1 = w
      · rw [if_pos hw, if_pos hw]
      · rw [if_neg hw, if_neg hw]
        exact ih hd

theorem idxGet_foldlAdd (ws : List String) (i0 : FtIdx) (key w' : String) :
    idxGet (ws.foldl (fun i w => idxAdd i w key) i0) w'
      = if w' ∈ ws then insert key (idxGet i0 w') else idxGet i0 w' := by
  induction ws generalizing i0 with
  | nil => simp
  | cons w ws ih =>
    rw [List.foldl_cons, ih (idxAdd i0 w key), idxGet_idxAdd]
    by_cases h1 : w' ∈ ws
    · rw [if_pos h1, if_pos (List.mem_cons_of_mem w h1)]
      by_cases h2 : w' = w
      · rw [if_pos h2, h2, Finset.insert_idem]
      · rw [if_neg h2]
    · rw [if_neg h1]
      by_cases h2 : w' = w
      · rw [if_pos h2, if_pos (by rw [h2]; exact List.mem_cons_self w ws), h2]
      · rw [if_neg h2, if_neg (by
          intro hh
          rcases List.mem_cons.mp hh with h' | h'
          · exact h2 h'
          · exact h1 h')]

theorem idxGet_indexValue (idx : FtIdx) (key : String) (v : Jval) (w : String) :
    idxGet (indexValue idx key v) w
      = if w ∈ tokensOf v then insert key ((idxGet idx w).erase key)
        else (idxGet idx w).erase key := by
  unfold indexValue
  rw [idxGet_foldlAdd, idxGet_idxDiscard]

/-- The index invariant maintained by every store mutation: a key is in
a word's posting set exactly when the key is live in the map and the
word is a token of its current value; and the word dict is key-unique
(a Python dict). -/
def IdxInv (st : IdxSt) : Prop :=
  ((st.idx.map Prod.fst).Nodup) ∧
  ∀ w k, k ∈ idxGet st.idx w ↔ ∃ v, dget st.data k = some v ∧ w ∈ tokensOf v

theorem IdxInv_set (st : IdxSt) (key : String) (v : Jval) (h : IdxInv st) :
    IdxInv ⟨dset st.data key v, indexValue st.idx key v⟩ := by
  obtain ⟨hnd, hinv⟩ := h
  refine ⟨nodup_indexValue st.idx key v hnd, ?_⟩
  intro w k
  show k ∈ idxGet (indexValue st.idx key v) w ↔
    ∃ v', dget (dset st.data key v) k = some v' ∧ w ∈ tokensOf v'
  rw [idxGet_indexValue, dget_dset]
  by_cases hk : k = key
  · subst hk
    rw [if_pos rfl]
    by_cases hw : w ∈ tokensOf v
    · rw [if_pos hw]
      constructor
      · intro _; exact ⟨v, rfl, hw⟩
      · intro _; exact Finset.mem_insert_self k _
    · rw [if_neg hw]
      constructor
      · intro hmem; exact absurd rfl (Finset.mem_erase.mp hmem).1
      · rintro ⟨v', hv', hw'⟩
        injection hv' with he
        rw [← he] at hw'
        exact absurd hw' hw
  · rw [if_neg hk]
    have herase : k ∈ (idxGet st.idx w).erase key ↔ k ∈ idxGet st.idx w := by
      rw [Finset.mem_erase]
      exact ⟨fun hh => hh.2, fun hh => ⟨hk, hh⟩⟩
    by_cases hw : w ∈ tokensOf v
    · rw [if_pos hw, Finset.mem_insert, herase]
      constructor
      · rintro (h1 | h1)
        · exact absurd h1 hk
        · exact (hinv w k).mp h1
      · intro h1
        exact Or.inr ((hinv w k).mpr h1)
    · rw [if_neg hw, herase]
      exact hinv w k

theorem IdxInv_del (st : IdxSt) (key : String) (h : IdxInv st) :
    IdxInv ⟨dpop st.data key, removeKey st.idx key⟩ := by
  obtain ⟨hnd, hinv⟩ := h
  refine ⟨nodup_removeKey st.idx key hnd, ?_⟩
  intro w k
  show k ∈ idxGet (removeKey st.idx key) w ↔
    ∃ v', dget (dpop st.data key) k = some v' ∧ w ∈ tokensOf v'
  rw [idxGet_removeKey st.idx key w hnd, dget_dpop, Finset.mem_erase]
  by_cases hk : k = key
  · subst hk
    rw [if_pos rfl]
    constructor
    · rintro ⟨hne, _⟩; exact absurd rfl hne
    · rintro ⟨v', hv', _⟩; exact Option.noConfusion hv'
  · rw [if_neg hk]
    constructor
    · rintro ⟨_, h2⟩; exact (hinv w k).mp h2
    · intro h1; exact ⟨hk, (hinv w k).mpr h1⟩

theorem IdxInv_op (st : IdxSt) (o : Op) (h : IdxInv st) : IdxInv (idxApplyOp st o) := by
  cases o with
  | set k v => exact IdxInv_set st k v h
  | del k => exact IdxInv_del st k h
  | bulk items =>
    simp only [idxApplyOp]
    induction items generalizing st with
    | nil => exact h
    | cons p items ih =>
      rw [List.foldl_cons]
      exact ih _ (IdxInv_set st p.1 p.2 h)

theorem IdxInv_exec (ops : List Op) : IdxInv (idxExec ops) := by
  unfold idxExec
  have hbase : IdxInv ⟨[], []⟩ := by
    refine ⟨List.nodup_nil, ?_⟩
    intro w k
    constructor
    · intro h; exact absurd h (Finset.not_mem_empty k)
    · rintro ⟨v', hv', _⟩; exact Option.noConfusion hv'
  generalize hst : (⟨[], []⟩ : IdxSt) = st at hbase ⊢
  clear hst
  induction ops generalizing st with
  | nil => exact hbase
  | cons o ops ih =>
    rw [List.foldl_cons]
    exact ih _ (IdxInv_op st o hbase)

theorem mem_foldl_inter (ws : List String) (f : String → Finset String)
    (S : Finset String) (k : String) :
    k ∈ ws.foldl (fun acc w => acc ∩ f w) S ↔ k ∈ S ∧ ∀ w ∈ ws, k ∈ f w := by
  induction ws generalizing S with
  | nil => simp
  | cons w ws ih =>
    rw [List.foldl_cons, ih, Finset.mem_inter]
    constructor
    · rintro ⟨⟨h1, h2⟩, h3⟩
      refine ⟨h1, ?_⟩
      intro w' hw'
      rcases List.mem_cons.mp hw' with h | h
      · subst h; exact h2
      · exact h3 w' h
    · rintro ⟨h1, h2⟩
      exact ⟨⟨h1, h2 w (List.mem_cons_self w ws)⟩,
        fun w' hw' => h2 w' (List.mem_cons_of_mem w hw')⟩

/-- C8 (counterexample): with one key `"k"` stored under value
`"hello"`, the token-less query `"!"` returns the empty set, although
`"k"` is in the map and its value vacuously contains every token of the
query (there are none): `search` special-cases `if not words: return
[]`, so the claimed "exactly the keys whose token set contains every
query token" fails for queries without word characters. -/
theorem spec_C8_counterexample :
    dget (idxExec [Op.set "k" (Jval.str "hello")]).data "k"
        = some (Jval.str "hello") ∧
    tokenize ("!".data) = [] ∧
    searchFT (idxExec [Op.set "k" (Jval.str "hello")]).idx "!" = ∅ :=
  ⟨rfl, rfl, rfl⟩

/-- C8 (amended): with indexes enabled, after any operation sequence
from a fresh store, for every query with at least one token, `search`
returns exactly the keys currently in the map whose stored value's
token set (lowercased word-character tokens of `str(value)`) contains
every token of the query; a key overwritten by a later `set` is found
only under its newest value's tokens. (The original claim fails only
for token-less queries, which return the empty set instead of all
keys - see the counterexample.) -/
theorem spec_C8 (ops : List Op) (q : String) (w0 : List Char) (ws0 : List (List Char))
    (hq : tokenize q.data = w0 :: ws0) :
    ∀ k, k ∈ searchFT (idxExec ops).idx q ↔
      ∃ v, dget (idxExec ops).data k = some v ∧
        ∀ w ∈ (tokenize q.data).map (fun t => String.mk t), w ∈ tokensOf v := by
  intro k
  obtain ⟨hnd, hinv⟩ := IdxInv_exec ops
  unfold searchFT
  rw [hq]
  simp only [List.map_cons]
  rw [mem_foldl_inter]
  constructor
  · rintro ⟨h1, h2⟩
    obtain ⟨v, hv, hw⟩ := (hinv _ k).mp h1
    refine ⟨v, hv, ?_⟩
    intro w hwmem
    rcases List.mem_cons.mp hwmem with h | h
    · rw [h]; exact hw
    · obtain ⟨v', hv', hw'⟩ := (hinv w k).mp (h2 w h)
      rw [hv] at hv'
      injection hv' with he
      rw [he]; exact hw'
  · rintro ⟨v, hv, hall⟩
    constructor
    · exact (hinv _ k).mpr ⟨v, hv, hall _ (List.mem_cons_self _ _)⟩
    · intro w hw
      exact (hinv w k).mpr ⟨v, hv, hall w (List.mem_cons_of_mem _ hw)⟩

theorem spec_C8_witness :
    "k" ∈ searchFT (idxExec [Op.set "k" (Jval.str "hello")]).idx "hello" ↔
      ∃ v, dget (idxExec [Op.set "k" (Jval.str "hello")]).data "k" = some v ∧
        ∀ w ∈ (tokenize ("hello" : String).data).map (fun t => String.mk t),
          w ∈ tokensOf v :=
  spec_C8 [Op.set "k" (Jval.str "hello")] "hello"
    ['h', 'e', 'l', 'l', 'o'] [] (by rfl) "k" 

/-- Where a mutating store call can raise: nowhere, in `_append_wal`
(the WAL write/fsync), or in `_save_snapshot`. In `KVStore.set` /
`delete` / `bulk_set` (`store.py` lines 101-143) the map and index
mutations all precede `_append_wal`, which precedes `_save_snapshot`;
`server.handle_client` converts any raise into an error response
(`server.py` lines 70-71). -/
inductive FailPoint where
  | none : FailPoint
  | wal : FailPoint
  | snap : FailPoint

/-- One mutating operation against state `st` and WAL `wal` with a
failure injected at `fp`: the returned triple is (new in-memory state,
new WAL contents, ok-response?). `bulk_set []` returns before touching
anything (`store.py` lines 133-134). -/
def runOpF (st : IdxSt) (wal : List Entry) (o : Op) (fp : FailPoint) :
    IdxSt × List Entry × Bool :=
  match o with
  | .bulk [] => (st, wal, true)
  | _ =>
    match fp with
    | .none => (idxApplyOp st o, wal ++ opEntries o, true)
    | .wal => (idxApplyOp st o, wal, false)
    | .snap => (idxApplyOp st o, wal ++ opEntries o, false)

/-- C9: the in-memory map and indexes are mutated before the WAL append
is attempted, so when the WAL append (or the snapshot write) raises,
the client sees an error response while the in-memory state already
reflects the complete mutation - an error response does not imply the
state is unchanged. -/
theorem spec_C9 (st : IdxSt) (wal : List Entry) (o : Op) (fp : FailPoint)
    (hfp : fp ≠ FailPoint.none) (ho : opEntries o ≠ []) :
    (runOpF st wal o fp).2.2 = false ∧
    (runOpF st wal o fp).1 = idxApplyOp st o := by
  cases o with
  | set k v =>
    cases fp with
    | none => exact absurd rfl hfp
    | wal => exact ⟨rfl, rfl⟩
    | snap => exact ⟨rfl, rfl⟩
  | del k =>
    cases fp with
    | none => exact absurd rfl hfp
    | wal => exact ⟨rfl, rfl⟩
    | snap => exact ⟨rfl, rfl⟩
  | bulk items =>
    cases items with
    | nil => exact absurd rfl ho
    | cons p items =>
      cases fp with
      | none => exact absurd rfl hfp
      | wal => exact ⟨rfl, rfl⟩
      | snap => exact ⟨rfl, rfl⟩

theorem spec_C9_witness :
    (runOpF ⟨[], []⟩ [] (Op.set "a" (Jval.str "x")) FailPoint.wal).2.2 = false ∧
    (runOpF ⟨[], []⟩ [] (Op.set "a" (Jval.str "x")) FailPoint.wal).1
      = idxApplyOp ⟨[], []⟩ (Op.set "a" (Jval.str "x")) :=
  spec_C9 ⟨[], []⟩ [] (Op.set "a" (Jval.str "x")) FailPoint.wal
    (fun h => FailPoint.noConfusion h) (fun h => List.noConfusion h)

/-- Whether a request is a `role` request (`method == "role"` on the
decoded JSON object; any non-string or missing method compares
unequal). -/
def isRoleReq (req : List (String × Jval)) : Bool :=
  match jlookup req "method" with
  | some (.str m) => m = "role"
  | _ => false

/-- `bulk_set` item application with partial effect: the for-loop
mutates pair by pair and an ill-shaped element raises mid-loop, keeping
the mutations already made. -/
def bulkApplyP (d : Dict) : List Jval → Dict × Bool
  | [] => (d, true)
  | e :: es =>
    match bulkElemApply d e with
    | some d' => bulkApplyP d' es
    | none => (d, false)

/-- `cluster_node.handle_client` (`cluster_node.py` lines 183-228) on
one decoded request: first the `role` probe (answered by every node),
then the primary gate - every other method on a non-primary node gets
`{ok: false, error: "not primary"}` with the store untouched - then the
primary-side dispatch (`get`/`set`/`delete`/`bulk_set`/unknown), whose
store effects are modelled on the string-keyed map projection and whose
raises become error responses. Result: (response object, new map). -/
def handleCluster (isP : Bool) (nodeId : Int) (d : Dict)
    (req : List (String × Jval)) : List (String × Jval) × Dict :=
  if isRoleReq req then
    ([("ok", .bool true), ("primary", .bool isP), ("node_id", .int nodeId)], d)
  else if !isP then
    (encResp false .null (some "not primary"), d)
  else
    match jlookup req "method" with
    | some (.str m) =>
      if m = "get" then
        match jlookup req "key" with
        | none => (encResp false .null (some "missing key"), d)
        | some .null => (encResp false .null (some "missing key"), d)
        | some (.str k) => (encResp true ((dget d k).getD .null) none, d)
        | some (.int _) => (encResp true .null none, d)
        | some (.bool _) => (encResp true .null none, d)
        | some (.arr _) => (encResp false .null (some "unhashable type: list"), d)
        | some (.obj _) => (encResp false .null (some "unhashable type: dict"), d)
      else if m = "set" then
        match jlookup req "key" with
        | none => (encResp false .null (some "missing key"), d)
        | some .null => (encResp false .null (some "missing key"), d)
        | some (.str k) =>
          (encResp true .null none, dset d k ((jlookup req "value").getD .null))
        | some (.int _) => (encResp true .null none, d)
        | some (.bool _) => (encResp true .null none, d)
        | some (.arr _) => (encResp false .null (some "unhashable type: list"), d)
        | some (.obj _) => (encResp false .null (some "unhashable type: dict"), d)
      else if m = "delete" then
        match jlookup req "key" with
        | none => (encResp false .null (some "missing key"), d)
        | some .null => (encResp false .null (some "missing key"), d)
        | some (.str k) => (encResp true .null none, dpop d k)
        | some (.int _) => (encResp true .null none, d)
        | some (.bool _) => (encResp true .null none, d)
        | some (.arr _) => (encResp false .null (some "unhashable type: list"), d)
        | some (.obj _) => (encResp false .null (some "unhashable type: dict"), d)
      else if m = "bulk_set" then
        match jlookup req "items" with
        | none => (encResp true .null none, d)
        | some (.arr elems) =>
          (match bulkApplyP d elems with
           | (d', true) => (encResp true .null none, d')
           | (d', false) => (encResp false .null (some "bad item"), d'))
        | some _ => (encResp false .null (some "bad items"), d)
      else (encResp false .null (some ("unknown method: " ++ m)), d)
    | _ => (encResp false .null (some "unknown method"), d)

/-- C10: on a cluster node whose `is_primary` flag is false, every
request other than `role` - including the read-only `get` (and any
other method name, known or unknown) - is rejected with
`{ok: false, error: "not primary"}` and the store is untouched: the
gate `if not is_primary` sits before the whole method dispatch. -/
theorem spec_C10 (isP : Bool) (nodeId : Int) (d : Dict)
    (req : List (String × Jval))
    (hrole : isRoleReq req = false) (hp : isP = false) :
    handleCluster isP nodeId d req
      = (encResp false .null (some "not primary"), d) := by
  subst hp
  unfold handleCluster
  rw [hrole]
  rfl

theorem spec_C10_witness :
    handleCluster false 2 [("k", Jval.str "v")]
        [("method", Jval.str "get"), ("key", Jval.str "k")]
      = (encResp false .null (some "not primary"), [("k", Jval.str "v")]) :=
  spec_C10 false 2 [("k", Jval.str "v")]
    [("method", Jval.str "get"), ("key", Jval.str "k")] (by rfl) rfl
